import Mathlib

/-!
Verification development for the text-model library (src/index.js): a shallow
embedding of its Range Model data structure and of the operations
fromElement (ingest), toElement (emit), split and concat, together with
theorems settling the specification claims.

Conventions of the embedding:
* JS strings are modelled as List Char; JS numbers that carry text offsets are
  modelled as Int (all arithmetic in the source is exact integer arithmetic).
* A JS object used as a string-keyed map (model.blocks and the intermediate
  merged maps) is modelled as an association list with the JS insertion-order
  semantics: assignment to an existing key updates it in place, assignment to
  a fresh key appends at the end (objSet below).
* A JS exception (the TypeError raised when blockTypes[name] is undefined,
  i.e. an unknown block-kind name reaches the per-kind dispatch) is modelled
  by Option/Except: none or Except.error means the operation throws.
* The DOM tree is modelled by the mutual inductives DomTree/DomForest; text
  nodes carry a numeric identity so that the in-place mutations performed by
  toElement (insertBefore, removeChild, nodeValue assignment) can be expressed
  as a pure splice of the identified text node.
-/

set_option maxHeartbeats 1000000

namespace TextModel

/-- The three behavioural kinds of tags distinguished by the tag registry. -/
inductive BKind where
  | continuous
  | propertied
  | singled
deriving DecidableEq, Repr

/-- One entry of the tag registry: the kind of the tag (the source stores the
handler function, whose identity is exactly the kind) and an associated name
(for tagTypes the canonical kind name, for blockTypes the tag name). -/
structure TagType where
  set : BKind
  name : String
deriving DecidableEq, Repr

/-- The tagTypes table of src/index.js: tag name to handler kind and canonical
kind name; unknown tags are absent (undefined in JS). -/
def tagTypes : String → Option TagType
  | "B" => some ⟨.continuous, "bold"⟩
  | "I" => some ⟨.continuous, "italic"⟩
  | "U" => some ⟨.continuous, "underline"⟩
  | "EM" => some ⟨.continuous, "emphasis"⟩
  | "STRONG" => some ⟨.continuous, "strong"⟩
  | "PRE" => some ⟨.continuous, "pre"⟩
  | "DEL" => some ⟨.continuous, "del"⟩
  | "H1" => some ⟨.continuous, "h1"⟩
  | "H2" => some ⟨.continuous, "h2"⟩
  | "H3" => some ⟨.continuous, "h3"⟩
  | "H4" => some ⟨.continuous, "h4"⟩
  | "H5" => some ⟨.continuous, "h5"⟩
  | "H6" => some ⟨.continuous, "h6"⟩
  | "A" => some ⟨.propertied, "link"⟩
  | "SPAN" => some ⟨.propertied, "span"⟩
  | "BLOCKQUOTE" => some ⟨.propertied, "block quote"⟩
  | "Q" => some ⟨.propertied, "quote"⟩
  | "CITE" => some ⟨.propertied, "cite"⟩
  | "CODE" => some ⟨.propertied, "code"⟩
  | "BR" => some ⟨.singled, "soft return"⟩
  | _ => none

/-- The blockTypes table: the transform-inversion of tagTypes, keyed by the
canonical kind name, holding the same handler kind and the tag name. -/
def blockTypes : String → Option TagType
  | "bold" => some ⟨.continuous, "B"⟩
  | "italic" => some ⟨.continuous, "I"⟩
  | "underline" => some ⟨.continuous, "U"⟩
  | "emphasis" => some ⟨.continuous, "EM"⟩
  | "strong" => some ⟨.continuous, "STRONG"⟩
  | "pre" => some ⟨.continuous, "PRE"⟩
  | "del" => some ⟨.continuous, "DEL"⟩
  | "h1" => some ⟨.continuous, "H1"⟩
  | "h2" => some ⟨.continuous, "H2"⟩
  | "h3" => some ⟨.continuous, "H3"⟩
  | "h4" => some ⟨.continuous, "H4"⟩
  | "h5" => some ⟨.continuous, "H5"⟩
  | "h6" => some ⟨.continuous, "H6"⟩
  | "link" => some ⟨.propertied, "A"⟩
  | "span" => some ⟨.propertied, "SPAN"⟩
  | "block quote" => some ⟨.propertied, "BLOCKQUOTE"⟩
  | "quote" => some ⟨.propertied, "Q"⟩
  | "cite" => some ⟨.propertied, "CITE"⟩
  | "code" => some ⟨.propertied, "CODE"⟩
  | "soft return" => some ⟨.singled, "BR"⟩
  | _ => none

/-- The sameAs alias table: tags collapsed to a synonymous canonical tag. -/
def sameAs : String → Option String
  | "B" => some "STRONG"
  | "U" => some "EM"
  | "I" => some "EM"
  | "H1" => some "H2"
  | "H3" => some "H2"
  | "H4" => some "H2"
  | "H5" => some "H2"
  | "H6" => some "H2"
  | "STRIKE" => some "DEL"
  | _ => none

/-- getNodeName of src/index.js: resolve a node name through the sameAs
alias table, the name itself when unaliased. -/
def getNodeName (nodeName : String) : String :=
  match sameAs nodeName with
  | some n => n
  | none => nodeName

/-- A propertied range entry: an object with start and end offsets plus the
captured attribute key-value pairs of the source element. -/
structure PropBlock where
  start : Int
  «end» : Int
  attrs : List (String × String)
deriving DecidableEq, Repr

/-- A value of the model.blocks mapping.  In JS all three are plain arrays;
the registry kind of the key determines how the array is interpreted, so the
three interpretations are modelled as a sum. -/
inductive BlockData where
  | cont (l : List Int)
  | prop (l : List PropBlock)
  | sing (l : List Int)
deriving DecidableEq, Repr

/-- Read a BlockData as a continuous (flattened pair) list.  The default []
for the other constructors is unreachable whenever the data stored under a key
matches the key's registry kind, which fromElement guarantees. -/
def BlockData.contList : BlockData → List Int
  | .cont l => l
  | _ => []

/-- Read a BlockData as a propertied entry list (default as in contList). -/
def BlockData.propList : BlockData → List PropBlock
  | .prop l => l
  | _ => []

/-- Read a BlockData as a singled position list (default as in contList). -/
def BlockData.singList : BlockData → List Int
  | .sing l => l
  | _ => []

/-- The Range Model: flat text plus the blocks mapping from canonical kind
names to range lists, in JS object insertion order. -/
structure RangeModel where
  text : List Char
  blocks : List (String × BlockData)
deriving DecidableEq, Repr

mutual
/-- A markup tree node: a text node (with a numeric identity used to express
toElement's in-place mutations), an element with tag, attributes and children,
or a document fragment. -/
inductive DomTree where
  | textN (id : Nat) (value : List Char)
  | elem (tag : String) (attrs : List (String × String)) (children : DomForest)
  | frag (children : DomForest)
deriving DecidableEq, Repr
/-- A list of sibling nodes (a separate inductive so that structural mutual
recursion over the tree is available). -/
inductive DomForest where
  | nil
  | cons (t : DomTree) (ts : DomForest)
deriving DecidableEq, Repr
end

/-- Build a DomForest from a list of nodes. -/
def DomForest.ofList : List DomTree → DomForest
  | [] => .nil
  | t :: ts => .cons t (ofList ts)

/-- nodeName of a node: the tag for elements, the DOM names for text nodes
and fragments. -/
def nodeNameOf : DomTree → String
  | .textN _ _ => "#text"
  | .elem tag _ _ => tag
  | .frag _ => "#document-fragment"

/-- contentTextOnly of src/index.js, expressed on the parent's node name: a
text node is content unless its parent is a SCRIPT or STYLE element (a
fragment parent never has those names, as in the source's nodeType check). -/
def contentTextOnly (parentName : String) : Bool :=
  !(parentName == "SCRIPT" || parentName == "STYLE")

mutual
/-- getContentText of src/index.js: concatenated character data of the text
descendants of el that pass contentTextOnly, in document order (a text node
root has no descendants). -/
def getContentText : DomTree → List Char
  | .textN _ _ => []
  | .elem tag _ cs => contentTextIn tag cs
  | .frag cs => contentTextIn "#document-fragment" cs
/-- Text content of a forest of siblings whose parent has the given name. -/
def contentTextIn (parentName : String) : DomForest → List Char
  | .nil => []
  | .cons (.textN _ v) ts =>
    (if contentTextOnly parentName then v else []) ++ contentTextIn parentName ts
  | .cons (.elem tag _ cs) ts => contentTextIn tag cs ++ contentTextIn parentName ts
  | .cons (.frag cs) ts => contentTextIn "#document-fragment" cs ++ contentTextIn parentName ts
end

/-- getAttributes of src/index.js: the attribute name-value pairs of an
element, in order. -/
def getAttributes : DomTree → List (String × String)
  | .elem _ attrs _ => attrs
  | _ => []

/-- JS object read obj[name]: the value stored under a key, none when the key
is absent (undefined). -/
def objGet (blocks : List (String × BlockData)) (name : String) : Option BlockData :=
  (blocks.find? (fun e => e.1 == name)).map (fun e => e.2)

/-- JS object write obj[name] = v: update an existing key in place keeping its
insertion position, append a fresh key at the end. -/
def objSet (blocks : List (String × BlockData)) (name : String) (v : BlockData) :
    List (String × BlockData) :=
  match blocks with
  | [] => [(name, v)]
  | e :: rest => if e.1 == name then (name, v) :: rest else e :: objSet rest name v

/-- JS Object.assign(dst, src): write every entry of src into dst in order. -/
def objAssign (dst src : List (String × BlockData)) : List (String × BlockData) :=
  src.foldl (fun d e => objSet d e.1 e.2) dst

/-- JS String.prototype.substr(start) on a List Char text: a negative start
counts back from the end of the string (clamped at 0). -/
def jsSubstrFrom (s : List Char) (start : Int) : List Char :=
  if start < 0 then s.drop (((s.length : Int) + start).toNat) else s.drop start.toNat

/-- JS String.prototype.substr(start, length): resolve the start as in
jsSubstrFrom, then take length characters (none for a negative length). -/
def jsSubstrLen (s : List Char) (start len : Int) : List Char :=
  (jsSubstrFrom s start).take len.toNat

/-- continuous of src/index.js: record a continuous span for a recognized
element.  The span brackets the element's content text at the current text
length; zero-length spans are not recorded; a span that continues the last
recorded pair of its kind (previous end at or after the new start) is merged
into it, otherwise a new pair is pushed.  The none branch of the registry
lookup is unreachable: the walker only dispatches tags whose alias-resolved
name is in tagTypes. -/
def continuous (model : RangeModel) (node : DomTree) : RangeModel :=
  let start : Int := model.text.length
  let text := getContentText node
  let «end» : Int := start + text.length
  if start ≠ «end» then
    match tagTypes (getNodeName (nodeNameOf node)) with
    | none => model
    | some tt =>
      let tagBlockName := tt.name
      let block := ((objGet model.blocks tagBlockName).map BlockData.contList).getD []
      let blockLen := block.length
      let lastBlockEndIndex := blockLen - 1
      let newBlock :=
        if blockLen ≥ 2 ∧ block.getD lastBlockEndIndex 0 ≥ start then
          block.set lastBlockEndIndex (max (block.getD lastBlockEndIndex 0) «end»)
        else block ++ [start, «end»]
      { model with blocks := objSet model.blocks tagBlockName (.cont newBlock) }
  else model

/-- propertied of src/index.js: record a propertied entry capturing the
element's attributes.  Zero-length entries are not recorded; entries are
pushed, never merged.  Note the source resolves the kind name from the raw
node name here (no sameAs aliasing), unlike continuous and singled. -/
def propertied (model : RangeModel) (node : DomTree) : RangeModel :=
  let start : Int := model.text.length
  let text := getContentText node
  let «end» : Int := start + text.length
  if start ≠ «end» then
    let properties := getAttributes node
    let obj : PropBlock := { start := start, «end» := «end», attrs := properties }
    match tagTypes (nodeNameOf node) with
    | none => model
    | some tt =>
      let block := ((objGet model.blocks tt.name).map BlockData.propList).getD []
      { model with blocks := objSet model.blocks tt.name (.prop (block ++ [obj])) }
  else model

/-- singled of src/index.js: record the current text length as a point mark;
always recorded, including at zero width. -/
def singled (model : RangeModel) (node : DomTree) : RangeModel :=
  let pos : Int := model.text.length
  match tagTypes (getNodeName (nodeNameOf node)) with
  | none => model
  | some tt =>
    let block := ((objGet model.blocks tt.name).map BlockData.singList).getD []
    { model with blocks := objSet model.blocks tt.name (.sing (block ++ [pos])) }

/-- The dispatch of fromElement's element branch: tagTypes[getNodeName(node)]
.set(model, node). -/
def runSet (model : RangeModel) (node : DomTree) : RangeModel :=
  match tagTypes (getNodeName (nodeNameOf node)) with
  | none => model
  | some tt =>
    match tt.set with
    | .continuous => continuous model node
    | .propertied => propertied model node
    | .singled => singled model node

mutual
/-- One step of fromElement's TreeWalker traversal at a visited node.  The
filter knownTagsOnly accepts a text node satisfying contentTextOnly (its data
is appended) and an element whose raw tag is in tagTypes (dispatched through
runSet); any other node is skipped but its children are still walked, which is
the DOM behaviour for a filter returning false (not FILTER.ACCEPT and not
FILTER.REJECT). -/
def walkTree (parentName : String) (model : RangeModel) : DomTree → RangeModel
  | .textN _ v =>
    if contentTextOnly parentName then { model with text := model.text ++ v } else model
  | .elem tag attrs cs =>
    let model1 :=
      if (tagTypes tag).isSome then runSet model (.elem tag attrs cs) else model
    walkForest tag model1 cs
  | .frag cs => walkForest "#document-fragment" model cs
/-- Walk a forest of siblings in document order, threading the model. -/
def walkForest (parentName : String) (model : RangeModel) : DomForest → RangeModel
  | .nil => model
  | .cons t ts => walkForest parentName (walkTree parentName model t) ts
end

/-- normalizeElementAsDocument of src/index.js: wrap a non-fragment node in a
fresh document fragment. -/
def normalizeElementAsDocument (el : DomTree) : DomTree :=
  match el with
  | .frag _ => el
  | _ => .frag (.cons el .nil)

/-- fromElement of src/index.js (ingest): normalize the input to a fragment
and walk every descendant with the knownTagsOnly filter, accumulating text
and blocks into a fresh model.  The walker's root itself is never visited, so
the walk is exactly the forest walk of the fragment's children. -/
def fromElement (el : DomTree) : RangeModel :=
  let model : RangeModel := { text := [], blocks := [] }
  match normalizeElementAsDocument el with
  | .frag cs => walkForest "#document-fragment" model cs
  | _ => model

/-- The loop of getBinarySortedInsertPosition.  The source's while loop is
given a fuel argument; binSearchGo_fuel below shows list.length + 1 fuel is
never exhausted, so the fuel-0 branch is unreachable.  The midpoint uses
Nat division of the nonnegative high - low, matching the source's shift.  -/
def binSearchGo (list : List Int) (value : Int) : Nat → Int → Int → Int
  | 0, low, _ => low
  | fuel + 1, low, high =>
    if low ≤ high then
      let midpoint : Int := low + (((high - low).toNat / 2 : Nat) : Int)
      let midValue := list.getD midpoint.toNat 0
      if midValue < value then binSearchGo list value fuel (midpoint + 1) high
      else if midValue > value then binSearchGo list value fuel low (midpoint - 1)
      else midpoint
    else low

/-- getBinarySortedInsertPosition of src/index.js: binary search for the index
at which value would be inserted into the ascending list (the matching index
when the probe hits value exactly).  The result is always nonnegative. -/
def getBinarySortedInsertPosition (list : List Int) (value : Int) : Int :=
  binSearchGo list value (list.length + 1) 0 ((list.length : Int) - 1)

/-- The inner pair loop of getOverlapCount over one other block: walk the
flattened list two entries at a time and count the pairs whose two endpoints
get different insertion positions in blockA.  The source indexes j, j + 1 with
j stepping by 2; a trailing odd element (never present in a well-formed even
list) is ignored here. -/
def getOverlapPairCount (blockA : List Int) : List Int → Nat
  | b0 :: b1 :: rest =>
    (if getBinarySortedInsertPosition blockA b0 ≠ getBinarySortedInsertPosition blockA b1
      then 1 else 0) + getOverlapPairCount blockA rest
  | _ => 0

/-- getOverlapCount of src/index.js: the number of overlaps if the other
blocks are applied over blockA (the variadic tail of arguments is a list). -/
def getOverlapCount (blockA : List Int) (otherBlocks : List (List Int)) : Nat :=
  (otherBlocks.map (getOverlapPairCount blockA)).sum

/-- getBlocksOfType of src/index.js: the sub-map of blocks whose keys have the
given registry kind.  The predicate dereferences blockTypes[blockName].set, so
any key absent from blockTypes makes the whole call throw (none here). -/
def getBlocksOfType (blocks : List (String × BlockData)) (type : BKind) :
    Option (List (String × BlockData)) :=
  if blocks.all (fun e => (blockTypes e.1).isSome) then
    some (blocks.filter (fun e => ((blockTypes e.1).map (fun t => t.set)) == some type))
  else none

/-- Failure modes of toElement: badKind models the TypeError thrown when an
unknown blocks key reaches blockTypes dispatch inside getBlocksOfType; stuck
models the tree-walk in getTextNodeTargets running past the last text node
(where the JS would dereference a null nodeValue or loop re-reading the stuck
walker's current node). -/
inductive EErr where
  | badKind
  | stuck
deriving DecidableEq, Repr

mutual
/-- The text-node walk used by getTextNodeTargets: the content text nodes
(contentTextOnly filter) under a root, in document order, with identities and
current values (a text-node root has no descendants). -/
def textNodesOf : DomTree → List (Nat × List Char)
  | .textN _ _ => []
  | .elem tag _ cs => textNodesIn tag cs
  | .frag cs => textNodesIn "#document-fragment" cs
/-- Content text nodes of a forest whose parent has the given name. -/
def textNodesIn (parentName : String) : DomForest → List (Nat × List Char)
  | .nil => []
  | .cons (.textN i v) ts =>
    (if contentTextOnly parentName then [(i, v)] else []) ++ textNodesIn parentName ts
  | .cons (.elem tag _ cs) ts => textNodesIn tag cs ++ textNodesIn parentName ts
  | .cons (.frag cs) ts => textNodesIn "#document-fragment" cs ++ textNodesIn parentName ts
end

/-- An entry of the list built by getTextNodeTargets: a reference to a text
node (by identity, with its value at walk time) and the optional start and end
fields the source sets only on the first and last entries. -/
structure TNItem where
  id : Nat
  val : List Char
  start : Option Int
  «end» : Option Int
deriving DecidableEq, Repr

/-- Set the end field of the last entry, as the source's
list[list.length - 1].end assignment. -/
def setLastEnd : List TNItem → Int → List TNItem
  | [], _ => []
  | [i], v => [{ i with «end» := some v }]
  | i :: is, v => i :: setLastEnd is v

/-- The second loop of getTextNodeTargets: keep advancing and pushing bare
entries while the accumulated text still ends before end, then set the last
entry's end field from the last visited node.  The loop is recursion on the
remaining walker nodes; exhausting them while still short of end is stuck. -/
def targetsCollect («end» : Int) (items : List TNItem) (str : List Char)
    (cur : Nat × List Char) : List (Nat × List Char) → Except EErr (List TNItem)
  | [] =>
    if (str.length : Int) < «end» then .error .stuck
    else .ok (setLastEnd items ((cur.2.length : Int) - ((str.length : Int) - «end»)))
  | n :: rs =>
    if (str.length : Int) < «end» then
      targetsCollect «end» (items ++ [{ id := n.1, val := n.2, start := none, «end» := none }])
        (str ++ n.2) n rs
    else .ok (setLastEnd items ((cur.2.length : Int) - ((str.length : Int) - «end»)))

/-- The first loop of getTextNodeTargets: advance while the accumulated text
plus the current node still ends before start, then hand over to the second
loop with the first entry carrying its in-node start offset. -/
def targetsSeek (start «end» : Int) (str : List Char) (cur : Nat × List Char) :
    List (Nat × List Char) → Except EErr (List TNItem)
  | [] =>
    if (str.length : Int) + cur.2.length < start then .error .stuck
    else
      targetsCollect «end»
        [{ id := cur.1, val := cur.2, start := some (start - str.length), «end» := none }]
        (str ++ cur.2) cur []
  | n :: rs =>
    if (str.length : Int) + cur.2.length < start then
      targetsSeek start «end» (str ++ cur.2) n rs
    else
      targetsCollect «end»
        [{ id := cur.1, val := cur.2, start := some (start - str.length), «end» := none }]
        (str ++ cur.2) cur (n :: rs)

/-- getTextNodeTargets of src/index.js: the text nodes spanning offsets
start to end of el's content text, the first entry carrying the in-node start
offset and the last the in-node end offset.  An empty walk (no text node at
all) is stuck: the source would read nodeValue of the root. -/
def getTextNodeTargets (el : DomTree) (start «end» : Int) : Except EErr (List TNItem) :=
  match textNodesOf el with
  | [] => .error .stuck
  | n0 :: rest => targetsSeek start «end» [] n0 rest

mutual
/-- Replace the text node with the given identity by a replacement forest, in
place in its parent's child list.  This is the net effect of the source's
insertBefore and removeChild sequences around one text node (identities are
unique, so at most one node is replaced). -/
def spliceText : DomTree → Nat → DomForest → DomTree
  | .textN i v, _, _ => .textN i v
  | .elem tag attrs cs, id, repl => .elem tag attrs (spliceForest cs id repl)
  | .frag cs, id, repl => .frag (spliceForest cs id repl)
/-- spliceText over a forest of siblings. -/
def spliceForest : DomForest → Nat → DomForest → DomForest
  | .nil, _, _ => .nil
  | .cons (.textN i v) ts, id, repl =>
    if i == id then appendForest repl (spliceForest ts id repl)
    else .cons (.textN i v) (spliceForest ts id repl)
  | .cons (.elem tag attrs cs) ts, id, repl =>
    .cons (.elem tag attrs (spliceForest cs id repl)) (spliceForest ts id repl)
  | .cons (.frag cs) ts, id, repl =>
    .cons (.frag (spliceForest cs id repl)) (spliceForest ts id repl)
/-- Concatenation of forests. -/
def appendForest : DomForest → DomForest → DomForest
  | .nil, gs => gs
  | .cons t ts, gs => .cons t (appendForest ts gs)
end

/-- The tree being built by toElement together with the next fresh text-node
identity. -/
structure EmitState where
  tree : DomTree
  nextId : Nat
deriving DecidableEq, Repr

/-- splitTextNode of src/index.js: split the targeted text node into before,
middle and after pieces, wrap the middle in a new element of the block type's
tag carrying the given attributes, and splice the pieces in place (empty
before and after pieces are elided).  Note the source reads item.start with a
falsy-default of 0 and item.end with a falsy-default of the node's length, so
an end field equal to 0 also falls back to the full length.  The blockTypes
lookup cannot miss here because callers take the block type from a successful
getBlocksOfType; the parentNode-or-rootEl fallback needs no counterpart since
every targeted text node lives in the tree. -/
def splitTextNode (blockType : String) (blockAttributes : List (String × String))
    (item : TNItem) (st : EmitState) : EmitState :=
  let text := item.val
  let startPos : Int := item.start.getD 0
  let endPos : Int :=
    match item.«end» with
    | none => (text.length : Int)
    | some v => if v == 0 then (text.length : Int) else v
  if startPos == endPos then st
  else
    let startText := jsSubstrLen text 0 startPos
    let middleText := jsSubstrLen text startPos (endPos - startPos)
    let endText := jsSubstrFrom text endPos
    let tagName := ((blockTypes blockType).map (fun t => t.name)).getD ""
    let blockEl := DomTree.elem tagName blockAttributes (.cons (.textN st.nextId middleText) .nil)
    let replacement : List DomTree :=
      (if startText.length > 0 then [DomTree.textN (st.nextId + 1) startText] else [])
        ++ [blockEl]
        ++ (if endText.length > 0 then [DomTree.textN item.id endText] else [])
    { tree := spliceText st.tree item.id (DomForest.ofList replacement),
      nextId := st.nextId + 2 }

/-- addSingledBlocks of src/index.js: insert an empty element of the block
type's tag at the in-node position of the single targeted text node, splitting
the node's text around it (empty pieces elided). -/
def addSingledBlocks (blockType : String) (item : TNItem) (st : EmitState) : EmitState :=
  let text := item.val
  let pos : Int := item.start.getD 0
  let startText := jsSubstrLen text 0 pos
  let endText := jsSubstrFrom text pos
  let tagName := ((blockTypes blockType).map (fun t => t.name)).getD ""
  let blockEl := DomTree.elem tagName [] .nil
  let replacement : List DomTree :=
    (if startText.length > 0 then [DomTree.textN st.nextId startText] else [])
      ++ [blockEl]
      ++ (if endText.length > 0 then [DomTree.textN item.id endText] else [])
  { tree := spliceText st.tree item.id (DomForest.ofList replacement),
    nextId := st.nextId + 1 }

/-- getBlocksOfType as used inside toElement, where the unknown-key TypeError
surfaces as the badKind error. -/
def getBlocksOfTypeE (blocks : List (String × BlockData)) (type : BKind) :
    Except EErr (List (String × BlockData)) :=
  match getBlocksOfType blocks type with
  | some l => .ok l
  | none => .error .badKind

/-- addPropertiedBlocksToElement of src/index.js: for each propertied kind and
each entry in order, locate the target text nodes of its span in the current
tree and split-and-wrap each of them with the entry's attributes. -/
def addPropertiedBlocksToElement (st : EmitState) (model : RangeModel) :
    Except EErr EmitState := do
  let propertiedBlocks ← getBlocksOfTypeE model.blocks .propertied
  propertiedBlocks.foldlM (fun st e =>
    e.2.propList.foldlM (fun st block => do
      let list ← getTextNodeTargets st.tree block.start block.«end»
      return list.foldl (fun st item => splitTextNode e.1 block.attrs item st) st) st) st

/-- sortContinuousBlocks of src/index.js: with exactly two continuous kinds
present, render the pair in reverse order when applying the second over the
first crosses more often than the other way around; any other number of kinds
is left in place. -/
def sortContinuousBlocks (blocks : List (String × BlockData)) : List (String × BlockData) :=
  match blocks with
  | [(k0, d0), (k1, d1)] =>
    let forwardCount := getOverlapCount d0.contList [d1.contList]
    let backwardCount := getOverlapCount d1.contList [d0.contList]
    if forwardCount > backwardCount then [(k1, d1), (k0, d0)] else [(k0, d0), (k1, d1)]
  | other => other

/-- The consecutive start-end pairs of a flattened continuous list, as
traversed by the source's index loops stepping by two (a trailing odd element,
never present in a well-formed list, is ignored). -/
def pairsOfC : List Int → List (Int × Int)
  | b0 :: b1 :: rest => (b0, b1) :: pairsOfC rest
  | _ => []

/-- addContinuousBlocksToElement of src/index.js: resolve the rendering order
of the continuous kinds, then split-and-wrap every pair's span with no
attributes. -/
def addContinuousBlocksToElement (st : EmitState) (model : RangeModel) :
    Except EErr EmitState := do
  let continuousBlocks ← getBlocksOfTypeE model.blocks .continuous
  (sortContinuousBlocks continuousBlocks).foldlM (fun st e =>
    (pairsOfC e.2.contList).foldlM (fun st se => do
      let list ← getTextNodeTargets st.tree se.1 se.2
      return list.foldl (fun st item => splitTextNode e.1 [] item st) st) st) st

/-- addSingledBlocksToElement of src/index.js: for each singled kind and each
position, locate the (single) target item at that zero-width span and insert
the empty element there. -/
def addSingledBlocksToElement (st : EmitState) (model : RangeModel) :
    Except EErr EmitState := do
  let singledBlocks ← getBlocksOfTypeE model.blocks .singled
  singledBlocks.foldlM (fun st e =>
    e.2.singList.foldlM (fun st pos => do
      let list ← getTextNodeTargets st.tree pos pos
      return list.foldl (fun st item => addSingledBlocks e.1 item st) st) st) st

/-- toElement of src/index.js (emit): materialize the text as a single text
node in a fragment (domify on plain text, then normalizeElementAsDocument),
then layer the blocks back on: propertied first, then continuous, then
singled. -/
def toElement (model : RangeModel) : Except EErr DomTree := do
  let el := normalizeElementAsDocument (.textN 0 model.text)
  let st : EmitState := { tree := el, nextId := 1 }
  let st ← addPropertiedBlocksToElement st model
  let st ← addContinuousBlocksToElement st model
  let st ← addSingledBlocksToElement st model
  return st.tree

/-- The per-kind callback of splitPropertiedBlocks: an entry with both
offsets strictly below num is kept in before unchanged; one with both offsets
strictly above num is shifted into after; every other entry is cloned into
both sides, before keeping its start with end set to num, after getting start
0 and end shifted.  A side whose result list is empty is not written into
that side's blocks. -/
def splitPropertiedStep (num : Int) (ba : RangeModel × RangeModel)
    (e : String × BlockData) : RangeModel × RangeModel :=
  let blocks := e.2.propList
  let beforeBlocks : List PropBlock := blocks.filterMap (fun block =>
    if block.start < num ∧ block.«end» < num then some block
    else if block.start > num ∧ block.«end» > num then none
    else some { block with «end» := num })
  let afterBlocks : List PropBlock := blocks.filterMap (fun block =>
    if block.start < num ∧ block.«end» < num then none
    else if block.start > num ∧ block.«end» > num then
      some { block with start := block.start - num, «end» := block.«end» - num }
    else some { block with start := 0, «end» := block.«end» - num })
  let b := if beforeBlocks.length > 0 then
      { ba.1 with blocks := objSet ba.1.blocks e.1 (.prop beforeBlocks) } else ba.1
  let a := if afterBlocks.length > 0 then
      { ba.2 with blocks := objSet ba.2.blocks e.1 (.prop afterBlocks) } else ba.2
  (b, a)

/-- splitPropertiedBlocks of src/index.js: the fold of splitPropertiedStep
over the propertied kinds. -/
def splitPropertiedBlocks (model before after : RangeModel) (num : Int) :
    Option (RangeModel × RangeModel) :=
  (getBlocksOfType model.blocks .propertied).map (fun entries =>
    entries.foldl (splitPropertiedStep num) (before, after))

/-- The per-kind callback of splitContinuousBlocks: locate num in the
flattened pair list by binary search; an odd insertion index lands inside an
open span, which is truncated at num for before and reopened at 0 for after;
an even index partitions the pairs directly.  Both sides are written
unconditionally, even when a side's list is empty. -/
def splitContinuousStep (num : Int) (ba : RangeModel × RangeModel)
    (e : String × BlockData) : RangeModel × RangeModel :=
  let blocks := e.2.contList
  let index := getBinarySortedInsertPosition blocks num
  let beforeBlocks :=
    if index % 2 == 1 then
      blocks.take (index.toNat - 1) ++ [blocks.getD (index.toNat - 1) 0, num]
    else blocks.take index.toNat
  let afterBlocks :=
    if index % 2 == 1 then
      [0, blocks.getD index.toNat 0 - num] ++
        (blocks.drop (index.toNat + 1)).map (fun value => value - num)
    else (blocks.drop index.toNat).map (fun value => value - num)
  ({ ba.1 with blocks := objSet ba.1.blocks e.1 (.cont beforeBlocks) },
   { ba.2 with blocks := objSet ba.2.blocks e.1 (.cont afterBlocks) })

/-- splitContinuousBlocks of src/index.js: the fold of splitContinuousStep
over the continuous kinds. -/
def splitContinuousBlocks (model before after : RangeModel) (num : Int) :
    Option (RangeModel × RangeModel) :=
  (getBlocksOfType model.blocks .continuous).map (fun entries =>
    entries.foldl (splitContinuousStep num) (before, after))

/-- The per-kind callback of splitSingledBlocks: positions strictly below
num stay in before, positions strictly above go to after shifted by -num,
positions equal to num are dropped; an empty side is not written. -/
def splitSingledStep (num : Int) (ba : RangeModel × RangeModel)
    (e : String × BlockData) : RangeModel × RangeModel :=
  let blocks := e.2.singList
  let beforeBlocks := blocks.filter (fun pos => pos < num)
  let afterBlocks := (blocks.filter (fun pos => pos > num)).map (fun pos => pos - num)
  let b := if beforeBlocks.length > 0 then
      { ba.1 with blocks := objSet ba.1.blocks e.1 (.sing beforeBlocks) } else ba.1
  let a := if afterBlocks.length > 0 then
      { ba.2 with blocks := objSet ba.2.blocks e.1 (.sing afterBlocks) } else ba.2
  (b, a)

/-- splitSingledBlocks of src/index.js: the fold of splitSingledStep over
the singled kinds. -/
def splitSingledBlocks (model before after : RangeModel) (num : Int) :
    Option (RangeModel × RangeModel) :=
  (getBlocksOfType model.blocks .singled).map (fun entries =>
    entries.foldl (splitSingledStep num) (before, after))

/-- split of src/index.js: cut a model at offset num into before and after.
The text is cut with the substr semantics (no validation of num anywhere);
the three per-kind splitters fill in the blocks.  none models the TypeError
thrown when a blocks key is not a registry kind name. -/
def split (model : RangeModel) (num : Int) : Option (RangeModel × RangeModel) := do
  let before : RangeModel := { text := jsSubstrLen model.text 0 num, blocks := [] }
  let after : RangeModel := { text := jsSubstrFrom model.text num, blocks := [] }
  let (b, a) ← splitPropertiedBlocks model before after num
  let (b, a) ← splitContinuousBlocks model b a num
  let (b, a) ← splitSingledBlocks model b a num
  return (b, a)

/-- The per-kind callback of concatPropertiedBlocks over before's entries:
prepend before's list to the shifted after list of the same kind, or add the
kind at the end when only before has it. -/
def concatPropertiedStep (acc : List (String × BlockData)) (e : String × BlockData) :
    List (String × BlockData) :=
  match objGet acc e.1 with
  | some d => objSet acc e.1 (.prop (e.2.propList ++ d.propList))
  | none => objSet acc e.1 (.prop e.2.propList)

/-- concatPropertiedBlocks of src/index.js: shift after's propertied entries
by num = before.text.length, then prepend before's lists per kind (kinds only
in before are appended at the end); the merged map is assigned into model. -/
def concatPropertiedBlocks (before after model : RangeModel) : Option RangeModel := do
  let num : Int := before.text.length
  let afterEntries ← getBlocksOfType after.blocks .propertied
  let mergedBlocks := afterEntries.map (fun e =>
    (e.1, BlockData.prop (e.2.propList.map (fun block =>
      { block with start := block.start + num, «end» := block.«end» + num }))))
  let beforeEntries ← getBlocksOfType before.blocks .propertied
  let merged := beforeEntries.foldl concatPropertiedStep mergedBlocks
  return { model with blocks := objAssign model.blocks merged }

/-- The per-kind callback of concatContinuousBlocks over before's entries:
when the kind is also present (shifted) from after and before's last value
and the shifted first value both equal num, drop the duplicate boundary;
otherwise concatenate; a kind only in before is added at the end. -/
def concatContinuousStep (num : Int) (acc : List (String × BlockData))
    (e : String × BlockData) : List (String × BlockData) :=
  match objGet acc e.1 with
  | some d =>
    let blocks := e.2.contList
    if blocks.getLast? == some num ∧ d.contList.head? == some num then
      objSet acc e.1 (.cont (blocks.dropLast ++ d.contList.drop 1))
    else objSet acc e.1 (.cont (blocks ++ d.contList))
  | none => objSet acc e.1 (.cont e.2.contList)

/-- concatContinuousBlocks of src/index.js: shift after's pair lists by num;
for a kind present on both sides, when before's last value and the shifted
first value both equal num the duplicate boundary is dropped, re-joining the
span split had cut; otherwise the lists are concatenated. -/
def concatContinuousBlocks (before after model : RangeModel) : Option RangeModel := do
  let num : Int := before.text.length
  let afterEntries ← getBlocksOfType after.blocks .continuous
  let mergedBlocks := afterEntries.map (fun e =>
    (e.1, BlockData.cont (e.2.contList.map (fun value => value + num))))
  let beforeEntries ← getBlocksOfType before.blocks .continuous
  let merged := beforeEntries.foldl (concatContinuousStep num) mergedBlocks
  return { model with blocks := objAssign model.blocks merged }

/-- The per-kind callback of concatSingledBlocks over before's entries:
concatenate before's positions with the shifted after positions of the same
kind, or add the kind at the end when only before has it. -/
def concatSingledStep (acc : List (String × BlockData)) (e : String × BlockData) :
    List (String × BlockData) :=
  match objGet acc e.1 with
  | some d => objSet acc e.1 (.sing (e.2.singList ++ d.singList))
  | none => objSet acc e.1 (.sing e.2.singList)

/-- concatSingledBlocks of src/index.js: shift after's positions by num and
concatenate per kind, no merging or dedup. -/
def concatSingledBlocks (before after model : RangeModel) : Option RangeModel := do
  let num : Int := before.text.length
  let afterEntries ← getBlocksOfType after.blocks .singled
  let mergedBlocks := afterEntries.map (fun e =>
    (e.1, BlockData.sing (e.2.singList.map (fun block => block + num))))
  let beforeEntries ← getBlocksOfType before.blocks .singled
  let merged := beforeEntries.foldl concatSingledStep mergedBlocks
  return { model with blocks := objAssign model.blocks merged }

/-- concat of src/index.js: result text is the concatenation, and the three
per-kind mergers assemble the blocks; none models the TypeError on an unknown
blocks key in either argument. -/
def concat (before after : RangeModel) : Option RangeModel := do
  let model : RangeModel := { text := before.text ++ after.text, blocks := [] }
  let model ← concatPropertiedBlocks before after model
  let model ← concatContinuousBlocks before after model
  let model ← concatSingledBlocks before after model
  return model

deriving instance DecidableEq for Except

/-! ### Association-list lemmas (JS object semantics) -/

theorem objGet_nil (n : String) : objGet [] n = none := rfl

theorem objGet_cons_of_eq (e : String × BlockData) (rest : List (String × BlockData))
    (n : String) (h : e.1 = n) : objGet (e :: rest) n = some e.2 := by
  simp only [objGet]
  rw [List.find?_cons_of_pos _ (by simp [h])]
  rfl

theorem objGet_cons_of_ne (e : String × BlockData) (rest : List (String × BlockData))
    (n : String) (h : e.1 ≠ n) : objGet (e :: rest) n = objGet rest n := by
  simp only [objGet]
  rw [List.find?_cons_of_neg _ (by simp [h])]

theorem objSet_cons_of_eq (e : String × BlockData) (rest : List (String × BlockData))
    (n : String) (v : BlockData) (h : e.1 = n) : objSet (e :: rest) n v = (n, v) :: rest := by
  simp [objSet, h]

theorem objSet_cons_of_ne (e : String × BlockData) (rest : List (String × BlockData))
    (n : String) (v : BlockData) (h : e.1 ≠ n) : objSet (e :: rest) n v = e :: objSet rest n v := by
  simp [objSet, h]

theorem objGet_objSet_self (bs : List (String × BlockData)) (n : String) (v : BlockData) :
    objGet (objSet bs n v) n = some v := by
  induction bs with
  | nil => simp [objSet, objGet]
  | cons e rest ih =>
    by_cases h : e.1 = n
    · rw [objSet_cons_of_eq _ _ _ _ h, objGet_cons_of_eq _ _ _ rfl]
    · rw [objSet_cons_of_ne _ _ _ _ h, objGet_cons_of_ne _ _ _ h]
      exact ih

theorem objGet_objSet_other (bs : List (String × BlockData)) (n m : String) (v : BlockData)
    (h : m ≠ n) : objGet (objSet bs n v) m = objGet bs m := by
  induction bs with
  | nil =>
    simp only [objSet, objGet]
    rw [List.find?_cons_of_neg _ (by simp [Ne.symm h])]
  | cons e rest ih =>
    by_cases he : e.1 = n
    · rw [objSet_cons_of_eq _ _ _ _ he]
      rw [objGet_cons_of_ne _ _ _ (by simpa using Ne.symm h)]
      by_cases hm : e.1 = m
      · rw [objGet_cons_of_eq _ _ _ hm]
        exact absurd (hm ▸ he) (Ne.symm h ∘ Eq.symm)
      · rw [objGet_cons_of_ne _ _ _ hm]
    · rw [objSet_cons_of_ne _ _ _ _ he]
      by_cases hm : e.1 = m
      · rw [objGet_cons_of_eq _ _ _ hm, objGet_cons_of_eq _ _ _ hm]
      · rw [objGet_cons_of_ne _ _ _ hm, objGet_cons_of_ne _ _ _ hm]
        exact ih

theorem objSet_of_objGet_none (bs : List (String × BlockData)) (n : String) (v : BlockData)
    (h : objGet bs n = none) : objSet bs n v = bs ++ [(n, v)] := by
  induction bs with
  | nil => simp [objSet]
  | cons e rest ih =>
    by_cases he : e.1 = n
    · rw [objGet_cons_of_eq _ _ _ he] at h
      exact absurd h (by simp)
    · rw [objGet_cons_of_ne _ _ _ he] at h
      rw [objSet_cons_of_ne _ _ _ _ he, ih h, List.cons_append]

theorem objGet_eq_none_iff (bs : List (String × BlockData)) (n : String) :
    objGet bs n = none ↔ ∀ e ∈ bs, e.1 ≠ n := by
  rw [objGet, Option.map_eq_none', List.find?_eq_none]
  simp [beq_iff_eq]

theorem objGet_append_left (bs cs : List (String × BlockData)) (n : String)
    (h : objGet bs n = none) : objGet (bs ++ cs) n = objGet cs n := by
  simp only [objGet] at h ⊢
  rw [List.find?_append]
  rcases hf : bs.find? (fun e => e.1 == n) with _ | e
  · rw [hf, Option.none_or]
  · rw [hf] at h
    simp at h

theorem keys_objSet (bs : List (String × BlockData)) (n m : String) (v : BlockData)
    (h : ∃ e ∈ objSet bs n v, e.1 = m) : m = n ∨ ∃ e ∈ bs, e.1 = m := by
  induction bs with
  | nil =>
    obtain ⟨e, he, hm⟩ := h
    simp only [objSet, List.mem_singleton] at he
    left
    rw [← hm, he]
  | cons b rest ih =>
    obtain ⟨e, he, hm⟩ := h
    by_cases hb : b.1 = n
    · rw [objSet_cons_of_eq _ _ _ _ hb] at he
      rcases List.mem_cons.mp he with he | he
      · left
        rw [← hm, he]
      · right
        exact ⟨e, List.mem_cons_of_mem _ he, hm⟩
    · rw [objSet_cons_of_ne _ _ _ _ hb] at he
      rcases List.mem_cons.mp he with he | he
      · right
        exact ⟨e, by simp [he], hm⟩
      · rcases ih ⟨e, he, hm⟩ with h1 | ⟨f, hf, hfm⟩
        · left
          exact h1
        · right
          exact ⟨f, List.mem_cons_of_mem _ hf, hfm⟩

theorem objGet_eq_some_split (bs : List (String × BlockData)) (name : String) (v : BlockData)
    (h : objGet bs name = some v) :
    ∃ bs1 bs2, bs = bs1 ++ (name, v) :: bs2 ∧ ∀ e ∈ bs1, e.1 ≠ name := by
  induction bs with
  | nil => simp [objGet] at h
  | cons e rest ih =>
    by_cases he : e.1 = name
    · rw [objGet_cons_of_eq _ _ _ he] at h
      refine ⟨[], rest, ?_, by simp⟩
      have : e = (name, v) := by
        obtain ⟨e1, e2⟩ := e
        simp only at he
        simp only [Option.some.injEq] at h
        rw [he, h]
      rw [this]
      rfl
    · rw [objGet_cons_of_ne _ _ _ he] at h
      obtain ⟨bs1, bs2, heq, hne⟩ := ih h
      refine ⟨e :: bs1, bs2, by rw [heq]; rfl, ?_⟩
      intro f hf
      rcases List.mem_cons.mp hf with hf | hf
      · rw [hf]
        exact he
      · exact hne f hf

theorem keys_nodup_right (bs1 bs2 : List (String × BlockData)) (name : String) (v : BlockData)
    (h : (((bs1 ++ (name, v) :: bs2).map Prod.fst)).Nodup) : ∀ e ∈ bs2, e.1 ≠ name := by
  intro e he hcontra
  rw [List.map_append, List.map_cons] at h
  have h2 := (List.nodup_append.mp h).2.1
  rw [List.nodup_cons] at h2
  exact h2.1 (by rw [← hcontra]; exact List.mem_map.mpr ⟨e, he, rfl⟩)

/-! ### Fold lemmas for the three split callbacks -/

theorem splitSingledStep_text (num : Int) (ba : RangeModel × RangeModel)
    (e : String × BlockData) :
    (splitSingledStep num ba e).1.text = ba.1.text
      ∧ (splitSingledStep num ba e).2.text = ba.2.text := by
  dsimp only [splitSingledStep]
  constructor <;> split <;> rfl

theorem splitSingledStep_get_other (num : Int) (ba : RangeModel × RangeModel)
    (e : String × BlockData) (name : String) (h : e.1 ≠ name) :
    objGet (splitSingledStep num ba e).1.blocks name = objGet ba.1.blocks name
      ∧ objGet (splitSingledStep num ba e).2.blocks name = objGet ba.2.blocks name := by
  dsimp only [splitSingledStep]
  constructor <;> split <;>
    simp [objGet_objSet_other _ _ _ _ (Ne.symm h)]

theorem splitSingledStep_get_self (num : Int) (ba : RangeModel × RangeModel)
    (e : String × BlockData) :
    objGet (splitSingledStep num ba e).1.blocks e.1
        = (if (e.2.singList.filter (fun pos => pos < num)).length > 0
            then some (.sing (e.2.singList.filter (fun pos => pos < num)))
            else objGet ba.1.blocks e.1)
      ∧ objGet (splitSingledStep num ba e).2.blocks e.1
        = (if ((e.2.singList.filter (fun pos => pos > num)).map (fun pos => pos - num)).length > 0
            then some (.sing ((e.2.singList.filter (fun pos => pos > num)).map
                (fun pos => pos - num)))
            else objGet ba.2.blocks e.1) := by
  dsimp only [splitSingledStep]
  constructor <;> split <;> simp_all [objGet_objSet_self]

theorem foldl_splitSingledStep_text (num : Int) (es : List (String × BlockData))
    (ba : RangeModel × RangeModel) :
    (es.foldl (splitSingledStep num) ba).1.text = ba.1.text
      ∧ (es.foldl (splitSingledStep num) ba).2.text = ba.2.text := by
  induction es generalizing ba with
  | nil => exact ⟨rfl, rfl⟩
  | cons e rest ih =>
    rw [List.foldl_cons]
    obtain ⟨h1, h2⟩ := ih (splitSingledStep num ba e)
    obtain ⟨g1, g2⟩ := splitSingledStep_text num ba e
    exact ⟨h1.trans g1, h2.trans g2⟩

theorem foldl_splitSingledStep_get_of_notmem (num : Int) (es : List (String × BlockData))
    (ba : RangeModel × RangeModel) (name : String) (h : ∀ e ∈ es, e.1 ≠ name) :
    objGet (es.foldl (splitSingledStep num) ba).1.blocks name = objGet ba.1.blocks name
      ∧ objGet (es.foldl (splitSingledStep num) ba).2.blocks name
          = objGet ba.2.blocks name := by
  induction es generalizing ba with
  | nil => exact ⟨rfl, rfl⟩
  | cons e rest ih =>
    rw [List.foldl_cons]
    obtain ⟨h1, h2⟩ := ih (splitSingledStep num ba e) (fun f hf => h f (List.mem_cons_of_mem _ hf))
    obtain ⟨g1, g2⟩ := splitSingledStep_get_other num ba e name (h e (by simp))
    exact ⟨h1.trans g1, h2.trans g2⟩

theorem foldl_splitSingledStep_get_mem (num : Int) (es1 es2 : List (String × BlockData))
    (d : BlockData) (ba : RangeModel × RangeModel) (name : String)
    (h1 : ∀ e ∈ es1, e.1 ≠ name) (h2 : ∀ e ∈ es2, e.1 ≠ name) :
    objGet ((es1 ++ (name, d) :: es2).foldl (splitSingledStep num) ba).1.blocks name
        = (if (d.singList.filter (fun pos => pos < num)).length > 0
            then some (.sing (d.singList.filter (fun pos => pos < num)))
            else objGet ba.1.blocks name)
      ∧ objGet ((es1 ++ (name, d) :: es2).foldl (splitSingledStep num) ba).2.blocks name
        = (if ((d.singList.filter (fun pos => pos > num)).map (fun pos => pos - num)).length > 0
            then some (.sing ((d.singList.filter (fun pos => pos > num)).map
                (fun pos => pos - num)))
            else objGet ba.2.blocks name) := by
  rw [List.foldl_append, List.foldl_cons]
  obtain ⟨m1, m2⟩ := foldl_splitSingledStep_get_of_notmem num es2
    (splitSingledStep num (es1.foldl (splitSingledStep num) ba) (name, d)) name h2
  obtain ⟨s1, s2⟩ := splitSingledStep_get_self num (es1.foldl (splitSingledStep num) ba) (name, d)
  obtain ⟨p1, p2⟩ := foldl_splitSingledStep_get_of_notmem num es1 ba name h1
  rw [p1] at s1
  rw [p2] at s2
  exact ⟨m1.trans s1, m2.trans s2⟩

theorem splitPropertiedStep_text (num : Int) (ba : RangeModel × RangeModel)
    (e : String × BlockData) :
    (splitPropertiedStep num ba e).1.text = ba.1.text
      ∧ (splitPropertiedStep num ba e).2.text = ba.2.text := by
  dsimp only [splitPropertiedStep]
  constructor <;> split <;> rfl

theorem splitPropertiedStep_get_other (num : Int) (ba : RangeModel × RangeModel)
    (e : String × BlockData) (name : String) (h : e.1 ≠ name) :
    objGet (splitPropertiedStep num ba e).1.blocks name = objGet ba.1.blocks name
      ∧ objGet (splitPropertiedStep num ba e).2.blocks name = objGet ba.2.blocks name := by
  dsimp only [splitPropertiedStep]
  constructor <;> split <;>
    simp [objGet_objSet_other _ _ _ _ (Ne.symm h)]

theorem splitPropertiedStep_get_self (num : Int) (ba : RangeModel × RangeModel)
    (e : String × BlockData) :
    objGet (splitPropertiedStep num ba e).1.blocks e.1
        = (if (e.2.propList.filterMap (fun block =>
              if block.start < num ∧ block.«end» < num then some block
              else if block.start > num ∧ block.«end» > num then none
              else some { block with «end» := num })).length > 0
            then some (.prop (e.2.propList.filterMap (fun block =>
              if block.start < num ∧ block.«end» < num then some block
              else if block.start > num ∧ block.«end» > num then none
              else some { block with «end» := num })))
            else objGet ba.1.blocks e.1)
      ∧ objGet (splitPropertiedStep num ba e).2.blocks e.1
        = (if (e.2.propList.filterMap (fun block =>
              if block.start < num ∧ block.«end» < num then none
              else if block.start > num ∧ block.«end» > num then
                some { block with start := block.start - num, «end» := block.«end» - num }
              else some { block with start := 0, «end» := block.«end» - num })).length > 0
            then some (.prop (e.2.propList.filterMap (fun block =>
              if block.start < num ∧ block.«end» < num then none
              else if block.start > num ∧ block.«end» > num then
                some { block with start := block.start - num, «end» := block.«end» - num }
              else some { block with start := 0, «end» := block.«end» - num })))
            else objGet ba.2.blocks e.1) := by
  dsimp only [splitPropertiedStep]
  constructor <;> split <;> simp_all [objGet_objSet_self]

theorem foldl_splitPropertiedStep_text (num : Int) (es : List (String × BlockData))
    (ba : RangeModel × RangeModel) :
    (es.foldl (splitPropertiedStep num) ba).1.text = ba.1.text
      ∧ (es.foldl (splitPropertiedStep num) ba).2.text = ba.2.text := by
  induction es generalizing ba with
  | nil => exact ⟨rfl, rfl⟩
  | cons e rest ih =>
    rw [List.foldl_cons]
    obtain ⟨h1, h2⟩ := ih (splitPropertiedStep num ba e)
    obtain ⟨g1, g2⟩ := splitPropertiedStep_text num ba e
    exact ⟨h1.trans g1, h2.trans g2⟩

theorem foldl_splitPropertiedStep_get_of_notmem (num : Int) (es : List (String × BlockData))
    (ba : RangeModel × RangeModel) (name : String) (h : ∀ e ∈ es, e.1 ≠ name) :
    objGet (es.foldl (splitPropertiedStep num) ba).1.blocks name = objGet ba.1.blocks name
      ∧ objGet (es.foldl (splitPropertiedStep num) ba).2.blocks name
          = objGet ba.2.blocks name := by
  induction es generalizing ba with
  | nil => exact ⟨rfl, rfl⟩
  | cons e rest ih =>
    rw [List.foldl_cons]
    obtain ⟨h1, h2⟩ := ih (splitPropertiedStep num ba e)
      (fun f hf => h f (List.mem_cons_of_mem _ hf))
    obtain ⟨g1, g2⟩ := splitPropertiedStep_get_other num ba e name (h e (by simp))
    exact ⟨h1.trans g1, h2.trans g2⟩

theorem foldl_splitPropertiedStep_get_mem (num : Int) (es1 es2 : List (String × BlockData))
    (d : BlockData) (ba : RangeModel × RangeModel) (name : String)
    (h1 : ∀ e ∈ es1, e.1 ≠ name) (h2 : ∀ e ∈ es2, e.1 ≠ name) :
    objGet ((es1 ++ (name, d) :: es2).foldl (splitPropertiedStep num) ba).1.blocks name
        = (if (d.propList.filterMap (fun block =>
              if block.start < num ∧ block.«end» < num then some block
              else if block.start > num ∧ block.«end» > num then none
              else some { block with «end» := num })).length > 0
            then some (.prop (d.propList.filterMap (fun block =>
              if block.start < num ∧ block.«end» < num then some block
              else if block.start > num ∧ block.«end» > num then none
              else some { block with «end» := num })))
            else objGet ba.1.blocks name)
      ∧ objGet ((es1 ++ (name, d) :: es2).foldl (splitPropertiedStep num) ba).2.blocks name
        = (if (d.propList.filterMap (fun block =>
              if block.start < num ∧ block.«end» < num then none
              else if block.start > num ∧ block.«end» > num then
                some { block with start := block.start - num, «end» := block.«end» - num }
              else some { block with start := 0, «end» := block.«end» - num })).length > 0
            then some (.prop (d.propList.filterMap (fun block =>
              if block.start < num ∧ block.«end» < num then none
              else if block.start > num ∧ block.«end» > num then
                some { block with start := block.start - num, «end» := block.«end» - num }
              else some { block with start := 0, «end» := block.«end» - num })))
            else objGet ba.2.blocks name) := by
  rw [List.foldl_append, List.foldl_cons]
  obtain ⟨m1, m2⟩ := foldl_splitPropertiedStep_get_of_notmem num es2
    (splitPropertiedStep num (es1.foldl (splitPropertiedStep num) ba) (name, d)) name h2
  obtain ⟨s1, s2⟩ := splitPropertiedStep_get_self num
    (es1.foldl (splitPropertiedStep num) ba) (name, d)
  obtain ⟨p1, p2⟩ := foldl_splitPropertiedStep_get_of_notmem num es1 ba name h1
  rw [p1] at s1
  rw [p2] at s2
  exact ⟨m1.trans s1, m2.trans s2⟩

theorem splitContinuousStep_text (num : Int) (ba : RangeModel × RangeModel)
    (e : String × BlockData) :
    (splitContinuousStep num ba e).1.text = ba.1.text
      ∧ (splitContinuousStep num ba e).2.text = ba.2.text :=
  ⟨rfl, rfl⟩

theorem splitContinuousStep_get_other (num : Int) (ba : RangeModel × RangeModel)
    (e : String × BlockData) (name : String) (h : e.1 ≠ name) :
    objGet (splitContinuousStep num ba e).1.blocks name = objGet ba.1.blocks name
      ∧ objGet (splitContinuousStep num ba e).2.blocks name = objGet ba.2.blocks name := by
  dsimp only [splitContinuousStep]
  exact ⟨objGet_objSet_other _ _ _ _ (Ne.symm h), objGet_objSet_other _ _ _ _ (Ne.symm h)⟩

theorem splitContinuousStep_get_self (num : Int) (ba : RangeModel × RangeModel)
    (e : String × BlockData) :
    objGet (splitContinuousStep num ba e).1.blocks e.1
        = some (.cont (if getBinarySortedInsertPosition e.2.contList num % 2 == 1
            then e.2.contList.take ((getBinarySortedInsertPosition e.2.contList num).toNat - 1)
              ++ [e.2.contList.getD
                    ((getBinarySortedInsertPosition e.2.contList num).toNat - 1) 0, num]
            else e.2.contList.take (getBinarySortedInsertPosition e.2.contList num).toNat))
      ∧ objGet (splitContinuousStep num ba e).2.blocks e.1
        = some (.cont (if getBinarySortedInsertPosition e.2.contList num % 2 == 1
            then [0, e.2.contList.getD (getBinarySortedInsertPosition e.2.contList num).toNat 0
                - num]
              ++ (e.2.contList.drop
                    ((getBinarySortedInsertPosition e.2.contList num).toNat + 1)).map
                  (fun value => value - num)
            else (e.2.contList.drop (getBinarySortedInsertPosition e.2.contList num).toNat).map
                (fun value => value - num))) := by
  dsimp only [splitContinuousStep]
  exact ⟨objGet_objSet_self _ _ _, objGet_objSet_self _ _ _⟩

theorem foldl_splitContinuousStep_text (num : Int) (es : List (String × BlockData))
    (ba : RangeModel × RangeModel) :
    (es.foldl (splitContinuousStep num) ba).1.text = ba.1.text
      ∧ (es.foldl (splitContinuousStep num) ba).2.text = ba.2.text := by
  induction es generalizing ba with
  | nil => exact ⟨rfl, rfl⟩
  | cons e rest ih =>
    rw [List.foldl_cons]
    obtain ⟨h1, h2⟩ := ih (splitContinuousStep num ba e)
    exact ⟨h1, h2⟩

theorem foldl_splitContinuousStep_get_of_notmem (num : Int) (es : List (String × BlockData))
    (ba : RangeModel × RangeModel) (name : String) (h : ∀ e ∈ es, e.1 ≠ name) :
    objGet (es.foldl (splitContinuousStep num) ba).1.blocks name = objGet ba.1.blocks name
      ∧ objGet (es.foldl (splitContinuousStep num) ba).2.blocks name
          = objGet ba.2.blocks name := by
  induction es generalizing ba with
  | nil => exact ⟨rfl, rfl⟩
  | cons e rest ih =>
    rw [List.foldl_cons]
    obtain ⟨h1, h2⟩ := ih (splitContinuousStep num ba e)
      (fun f hf => h f (List.mem_cons_of_mem _ hf))
    obtain ⟨g1, g2⟩ := splitContinuousStep_get_other num ba e name (h e (by simp))
    exact ⟨h1.trans g1, h2.trans g2⟩

theorem foldl_splitContinuousStep_get_mem (num : Int) (es1 es2 : List (String × BlockData))
    (d : BlockData) (ba : RangeModel × RangeModel) (name : String)
    (_h1 : ∀ e ∈ es1, e.1 ≠ name) (h2 : ∀ e ∈ es2, e.1 ≠ name) :
    objGet ((es1 ++ (name, d) :: es2).foldl (splitContinuousStep num) ba).1.blocks name
        = some (.cont (if getBinarySortedInsertPosition d.contList num % 2 == 1
            then d.contList.take ((getBinarySortedInsertPosition d.contList num).toNat - 1)
              ++ [d.contList.getD
                    ((getBinarySortedInsertPosition d.contList num).toNat - 1) 0, num]
            else d.contList.take (getBinarySortedInsertPosition d.contList num).toNat))
      ∧ objGet ((es1 ++ (name, d) :: es2).foldl (splitContinuousStep num) ba).2.blocks name
        = some (.cont (if getBinarySortedInsertPosition d.contList num % 2 == 1
            then [0, d.contList.getD (getBinarySortedInsertPosition d.contList num).toNat 0
                - num]
              ++ (d.contList.drop
                    ((getBinarySortedInsertPosition d.contList num).toNat + 1)).map
                  (fun value => value - num)
            else (d.contList.drop (getBinarySortedInsertPosition d.contList num).toNat).map
                (fun value => value - num))) := by
  rw [List.foldl_append, List.foldl_cons]
  obtain ⟨m1, m2⟩ := foldl_splitContinuousStep_get_of_notmem num es2
    (splitContinuousStep num (es1.foldl (splitContinuousStep num) ba) (name, d)) name h2
  obtain ⟨s1, s2⟩ := splitContinuousStep_get_self num
    (es1.foldl (splitContinuousStep num) ba) (name, d)
  exact ⟨m1.trans s1, m2.trans s2⟩

/-! ### Characterizations of split -/

theorem getBlocksOfType_eq_some (bs : List (String × BlockData)) (k : BKind)
    (h : ∀ e ∈ bs, (blockTypes e.1).isSome) :
    getBlocksOfType bs k
      = some (bs.filter (fun e => ((blockTypes e.1).map (fun t => t.set)) == some k)) := by
  unfold getBlocksOfType
  rw [if_pos]
  exact List.all_eq_true.mpr (fun e he => h e he)

theorem getBlocksOfType_eq_none (bs : List (String × BlockData)) (k : BKind)
    (e0 : String × BlockData) (he0 : e0 ∈ bs) (h : blockTypes e0.1 = none) :
    getBlocksOfType bs k = none := by
  unfold getBlocksOfType
  rw [if_neg]
  intro hall
  have := List.all_eq_true.mp hall e0 he0
  rw [h] at this
  exact absurd this (by simp)

theorem split_eq_folds (M : RangeModel) (num : Int)
    (h : ∀ e ∈ M.blocks, (blockTypes e.1).isSome) :
    split M num = some
      ((M.blocks.filter (fun e =>
          ((blockTypes e.1).map (fun t => t.set)) == some BKind.singled)).foldl
        (splitSingledStep num)
        ((M.blocks.filter (fun e =>
            ((blockTypes e.1).map (fun t => t.set)) == some BKind.continuous)).foldl
          (splitContinuousStep num)
          ((M.blocks.filter (fun e =>
              ((blockTypes e.1).map (fun t => t.set)) == some BKind.propertied)).foldl
            (splitPropertiedStep num)
            ({ text := jsSubstrLen M.text 0 num, blocks := [] },
             { text := jsSubstrFrom M.text num, blocks := [] })))) := by
  unfold split splitPropertiedBlocks splitContinuousBlocks splitSingledBlocks
  rw [getBlocksOfType_eq_some _ _ h, getBlocksOfType_eq_some _ _ h,
    getBlocksOfType_eq_some _ _ h]
  rfl

theorem split_eq_none_of_bad (M : RangeModel) (num : Int)
    (e0 : String × BlockData) (he0 : e0 ∈ M.blocks) (h : blockTypes e0.1 = none) :
    split M num = none := by
  unfold split splitPropertiedBlocks
  rw [getBlocksOfType_eq_none _ _ e0 he0 h]
  rfl

/-- Claim C8: for every model and offset, split sends each singled mark
strictly below the offset to before unchanged, each mark strictly above to
after decreased by the offset, and drops marks equal to the offset from both
sides (a side receiving no marks of the kind gets no entry at all).  Stated
for a model with pairwise distinct block keys whose entry for the kind name
holds the singled position list poss. -/
theorem c8_split_singled (M : RangeModel) (num : Int) (name : String) (poss : List Int)
    (b a : RangeModel)
    (hnd : (M.blocks.map Prod.fst).Nodup)
    (hkind : (blockTypes name).map (fun t => t.set) = some BKind.singled)
    (hget : objGet M.blocks name = some (.sing poss))
    (hsplit : split M num = some (b, a)) :
    objGet b.blocks name
        = (if (poss.filter (fun pos => pos < num)).length > 0
            then some (.sing (poss.filter (fun pos => pos < num))) else none)
      ∧ objGet a.blocks name
        = (if ((poss.filter (fun pos => pos > num)).map (fun pos => pos - num)).length > 0
            then some (.sing ((poss.filter (fun pos => pos > num)).map (fun pos => pos - num)))
            else none) := by
  have hknown : ∀ e ∈ M.blocks, (blockTypes e.1).isSome := by
    intro e he
    rcases hbt : blockTypes e.1 with _ | tt
    · rw [split_eq_none_of_bad M num e he hbt] at hsplit
      exact absurd hsplit (by simp)
    · simp
  rw [split_eq_folds M num hknown] at hsplit
  have hba := Option.some.inj hsplit
  obtain ⟨bs1, bs2, heq, hleft⟩ := objGet_eq_some_split M.blocks name (.sing poss) hget
  have hright := keys_nodup_right bs1 bs2 name _ (heq ▸ hnd)
  have hpd : (fun e => ((blockTypes e.1).map (fun t => t.set)) == some BKind.singled)
      ((name, BlockData.sing poss)) = true := by
    simp only [hkind]
    rfl
  have hfilter : M.blocks.filter (fun e =>
        ((blockTypes e.1).map (fun t => t.set)) == some BKind.singled)
      = bs1.filter (fun e => ((blockTypes e.1).map (fun t => t.set)) == some BKind.singled)
        ++ (name, BlockData.sing poss)
          :: bs2.filter (fun e => ((blockTypes e.1).map (fun t => t.set)) == some BKind.singled) := by
    rw [heq, List.filter_append, List.filter_cons, if_pos hpd]
  have hotherkind : ∀ (k : BKind), k ≠ BKind.singled →
      ∀ e ∈ M.blocks.filter (fun e => ((blockTypes e.1).map (fun t => t.set)) == some k),
        e.1 ≠ name := by
    intro k hk e he hcontra
    have hp := List.of_mem_filter he
    rw [hcontra, hkind] at hp
    simp only [beq_iff_eq, Option.some.injEq] at hp
    exact hk hp.symm
  have hmiss1 := foldl_splitPropertiedStep_get_of_notmem num
    (M.blocks.filter (fun e => ((blockTypes e.1).map (fun t => t.set)) == some BKind.propertied))
    ({ text := jsSubstrLen M.text 0 num, blocks := [] },
     { text := jsSubstrFrom M.text num, blocks := [] }) name
    (hotherkind BKind.propertied (by simp))
  have hmiss2 := foldl_splitContinuousStep_get_of_notmem num
    (M.blocks.filter (fun e => ((blockTypes e.1).map (fun t => t.set)) == some BKind.continuous))
    ((M.blocks.filter (fun e =>
        ((blockTypes e.1).map (fun t => t.set)) == some BKind.propertied)).foldl
      (splitPropertiedStep num)
      ({ text := jsSubstrLen M.text 0 num, blocks := [] },
       { text := jsSubstrFrom M.text num, blocks := [] })) name
    (hotherkind BKind.continuous (by simp))
  have hhit := foldl_splitSingledStep_get_mem num
    (bs1.filter (fun e => ((blockTypes e.1).map (fun t => t.set)) == some BKind.singled))
    (bs2.filter (fun e => ((blockTypes e.1).map (fun t => t.set)) == some BKind.singled))
    (BlockData.sing poss)
    ((M.blocks.filter (fun e =>
        ((blockTypes e.1).map (fun t => t.set)) == some BKind.continuous)).foldl
      (splitContinuousStep num)
      ((M.blocks.filter (fun e =>
          ((blockTypes e.1).map (fun t => t.set)) == some BKind.propertied)).foldl
        (splitPropertiedStep num)
        ({ text := jsSubstrLen M.text 0 num, blocks := [] },
         { text := jsSubstrFrom M.text num, blocks := [] }))) name
    (fun e he => hleft e (List.mem_of_mem_filter he))
    (fun e he => hright e (List.mem_of_mem_filter he))
  rw [← hfilter] at hhit
  rw [hba] at hhit
  obtain ⟨hh1, hh2⟩ := hhit
  rw [hmiss2.1, hmiss1.1] at hh1
  rw [hmiss2.2, hmiss1.2] at hh2
  constructor
  · rw [hh1]
    rfl
  · rw [hh2]
    rfl

/-- The model of the C8 witness: soft-return marks at 1, 2 and 3. -/
def c8M : RangeModel :=
  { text := "abcd".toList, blocks := [("soft return", .sing [1, 2, 3])] }

/-- The before half of splitting c8M at 2. -/
def c8B : RangeModel :=
  { text := "ab".toList, blocks := [("soft return", .sing [1])] }

/-- The after half of splitting c8M at 2. -/
def c8A : RangeModel :=
  { text := "cd".toList, blocks := [("soft return", .sing [1])] }

/-- Witness for C8 at c8M split at offset 2: the mark below stays, the mark
at 2 is dropped, the mark above shifts to 1. -/
theorem c8_split_singled_witness :
    ((c8M.blocks.map Prod.fst).Nodup
      ∧ (blockTypes "soft return").map (fun t => t.set) = some BKind.singled
      ∧ objGet c8M.blocks "soft return" = some (.sing [1, 2, 3])
      ∧ split c8M 2 = some (c8B, c8A))
      ∧ (objGet c8B.blocks "soft return"
            = (if (([1, 2, 3] : List Int).filter (fun pos => pos < 2)).length > 0
                then some (.sing (([1, 2, 3] : List Int).filter (fun pos => pos < 2))) else none)
          ∧ objGet c8A.blocks "soft return"
            = (if ((([1, 2, 3] : List Int).filter (fun pos => pos > 2)).map
                  (fun pos => pos - 2)).length > 0
                then some (.sing ((([1, 2, 3] : List Int).filter (fun pos => pos > 2)).map
                  (fun pos => pos - 2)))
                else none)) :=
  ⟨⟨by decide, by decide, by decide, by decide⟩,
    c8_split_singled c8M 2 "soft return" [1, 2, 3] c8B c8A
      (by decide) (by decide) (by decide) (by decide)⟩

/-- Claim C5 (amended): split partitions each propertied list with strict
comparisons on both endpoints: an entry with start and end both strictly
below the offset goes to before unchanged; one with start and end both
strictly above goes to after shifted; every other entry, including one
touching the offset at either endpoint, is cloned into both sides, before
with its end set to the offset and after with start 0 and end shifted, so a
range ending (starting) exactly at the offset leaves a zero-length clone in
after (before); a side receiving no entries of the kind gets no entry. -/
theorem c5_amended_split_propertied (M : RangeModel) (num : Int) (name : String)
    (pl : List PropBlock) (b a : RangeModel)
    (hnd : (M.blocks.map Prod.fst).Nodup)
    (hkind : (blockTypes name).map (fun t => t.set) = some BKind.propertied)
    (hget : objGet M.blocks name = some (.prop pl))
    (hsplit : split M num = some (b, a)) :
    objGet b.blocks name
        = (if (pl.filterMap (fun block =>
              if block.start < num ∧ block.«end» < num then some block
              else if block.start > num ∧ block.«end» > num then none
              else some { block with «end» := num })).length > 0
            then some (.prop (pl.filterMap (fun block =>
              if block.start < num ∧ block.«end» < num then some block
              else if block.start > num ∧ block.«end» > num then none
              else some { block with «end» := num })))
            else none)
      ∧ objGet a.blocks name
        = (if (pl.filterMap (fun block =>
              if block.start < num ∧ block.«end» < num then none
              else if block.start > num ∧ block.«end» > num then
                some { block with start := block.start - num, «end» := block.«end» - num }
              else some { block with start := 0, «end» := block.«end» - num })).length > 0
            then some (.prop (pl.filterMap (fun block =>
              if block.start < num ∧ block.«end» < num then none
              else if block.start > num ∧ block.«end» > num then
                some { block with start := block.start - num, «end» := block.«end» - num }
              else some { block with start := 0, «end» := block.«end» - num })))
            else none) := by
  have hknown : ∀ e ∈ M.blocks, (blockTypes e.1).isSome := by
    intro e he
    rcases hbt : blockTypes e.1 with _ | tt
    · rw [split_eq_none_of_bad M num e he hbt] at hsplit
      exact absurd hsplit (by simp)
    · simp
  rw [split_eq_folds M num hknown] at hsplit
  have hba := Option.some.inj hsplit
  obtain ⟨bs1, bs2, heq, hleft⟩ := objGet_eq_some_split M.blocks name (.prop pl) hget
  have hright := keys_nodup_right bs1 bs2 name _ (heq ▸ hnd)
  have hpd : (fun e => ((blockTypes e.1).map (fun t => t.set)) == some BKind.propertied)
      ((name, BlockData.prop pl)) = true := by
    simp only [hkind]
    rfl
  have hfilter : M.blocks.filter (fun e =>
        ((blockTypes e.1).map (fun t => t.set)) == some BKind.propertied)
      = bs1.filter (fun e => ((blockTypes e.1).map (fun t => t.set)) == some BKind.propertied)
        ++ (name, BlockData.prop pl)
          :: bs2.filter (fun e =>
              ((blockTypes e.1).map (fun t => t.set)) == some BKind.propertied) := by
    rw [heq, List.filter_append, List.filter_cons, if_pos hpd]
  have hotherkind : ∀ (k : BKind), k ≠ BKind.propertied →
      ∀ e ∈ M.blocks.filter (fun e => ((blockTypes e.1).map (fun t => t.set)) == some k),
        e.1 ≠ name := by
    intro k hk e he hcontra
    have hp := List.of_mem_filter he
    rw [hcontra, hkind] at hp
    simp only [beq_iff_eq, Option.some.injEq] at hp
    exact hk hp.symm
  have hhit := foldl_splitPropertiedStep_get_mem num
    (bs1.filter (fun e => ((blockTypes e.1).map (fun t => t.set)) == some BKind.propertied))
    (bs2.filter (fun e => ((blockTypes e.1).map (fun t => t.set)) == some BKind.propertied))
    (BlockData.prop pl)
    ({ text := jsSubstrLen M.text 0 num, blocks := [] },
     { text := jsSubstrFrom M.text num, blocks := [] }) name
    (fun e he => hleft e (List.mem_of_mem_filter he))
    (fun e he => hright e (List.mem_of_mem_filter he))
  rw [← hfilter] at hhit
  have hmissC := foldl_splitContinuousStep_get_of_notmem num
    (M.blocks.filter (fun e => ((blockTypes e.1).map (fun t => t.set)) == some BKind.continuous))
    ((M.blocks.filter (fun e =>
        ((blockTypes e.1).map (fun t => t.set)) == some BKind.propertied)).foldl
      (splitPropertiedStep num)
      ({ text := jsSubstrLen M.text 0 num, blocks := [] },
       { text := jsSubstrFrom M.text num, blocks := [] })) name
    (hotherkind BKind.continuous (by simp))
  have hmissS := foldl_splitSingledStep_get_of_notmem num
    (M.blocks.filter (fun e => ((blockTypes e.1).map (fun t => t.set)) == some BKind.singled))
    ((M.blocks.filter (fun e =>
        ((blockTypes e.1).map (fun t => t.set)) == some BKind.continuous)).foldl
      (splitContinuousStep num)
      ((M.blocks.filter (fun e =>
          ((blockTypes e.1).map (fun t => t.set)) == some BKind.propertied)).foldl
        (splitPropertiedStep num)
        ({ text := jsSubstrLen M.text 0 num, blocks := [] },
         { text := jsSubstrFrom M.text num, blocks := [] }))) name
    (hotherkind BKind.singled (by simp))
  rw [hba] at hmissS
  obtain ⟨hS1, hS2⟩ := hmissS
  rw [hmissC.1, hhit.1] at hS1
  rw [hmissC.2, hhit.2] at hS2
  constructor
  · rw [hS1]
    rfl
  · rw [hS2]
    rfl

/-- The model of the C5 amended witness: the spec's propertied link range
with href x from 2 to 8. -/
def c5wM : RangeModel :=
  { text := "abcdefgh".toList, blocks := [("link", .prop [⟨2, 8, [("href", "x")]⟩])] }

/-- The before half of splitting c5wM at 5. -/
def c5wB : RangeModel :=
  { text := "abcde".toList, blocks := [("link", .prop [⟨2, 5, [("href", "x")]⟩])] }

/-- The after half of splitting c5wM at 5. -/
def c5wA : RangeModel :=
  { text := "fgh".toList, blocks := [("link", .prop [⟨0, 3, [("href", "x")]⟩])] }

/-- Witness for the amended C5 at the spec's example: the link range 2-8 with
href x split at 5 yields link 2-5 in before and link 0-3 in after, both with
the href attribute. -/
theorem c5_amended_split_propertied_witness :
    ((c5wM.blocks.map Prod.fst).Nodup
      ∧ (blockTypes "link").map (fun t => t.set) = some BKind.propertied
      ∧ objGet c5wM.blocks "link" = some (.prop [⟨2, 8, [("href", "x")]⟩])
      ∧ split c5wM 5 = some (c5wB, c5wA))
      ∧ (objGet c5wB.blocks "link"
          = (if (([⟨2, 8, [("href", "x")]⟩] : List PropBlock).filterMap (fun block =>
                if block.start < 5 ∧ block.«end» < 5 then some block
                else if block.start > 5 ∧ block.«end» > 5 then none
                else some { block with «end» := 5 })).length > 0
              then some (.prop (([⟨2, 8, [("href", "x")]⟩] : List PropBlock).filterMap
                (fun block =>
                  if block.start < 5 ∧ block.«end» < 5 then some block
                  else if block.start > 5 ∧ block.«end» > 5 then none
                  else some { block with «end» := 5 })))
              else none)
        ∧ objGet c5wA.blocks "link"
          = (if (([⟨2, 8, [("href", "x")]⟩] : List PropBlock).filterMap (fun block =>
                if block.start < 5 ∧ block.«end» < 5 then none
                else if block.start > 5 ∧ block.«end» > 5 then
                  some { block with start := block.start - 5, «end» := block.«end» - 5 }
                else some { block with start := 0, «end» := block.«end» - 5 })).length > 0
              then some (.prop (([⟨2, 8, [("href", "x")]⟩] : List PropBlock).filterMap
                (fun block =>
                  if block.start < 5 ∧ block.«end» < 5 then none
                  else if block.start > 5 ∧ block.«end» > 5 then
                    some { block with start := block.start - 5, «end» := block.«end» - 5 }
                  else some { block with start := 0, «end» := block.«end» - 5 })))
              else none)) :=
  ⟨⟨by decide, by decide, by decide, by decide⟩,
    c5_amended_split_propertied c5wM 5 "link" [⟨2, 8, [("href", "x")]⟩] c5wB c5wA
      (by decide) (by decide) (by decide) (by decide)⟩

/-! ### Known-key preservation and concat success -/

theorem known_objSet (bs : List (String × BlockData)) (n : String) (v : BlockData)
    (hn : (blockTypes n).isSome) (hb : ∀ f ∈ bs, (blockTypes f.1).isSome) :
    ∀ f ∈ objSet bs n v, (blockTypes f.1).isSome := by
  intro f hf
  rcases keys_objSet bs n f.1 v ⟨f, hf, rfl⟩ with h | ⟨g, hg, hgf⟩
  · rw [h]
    exact hn
  · rw [← hgf]
    exact hb g hg

theorem splitPropertiedStep_known (num : Int) (ba : RangeModel × RangeModel)
    (e : String × BlockData) (he : (blockTypes e.1).isSome)
    (hb : ∀ f ∈ ba.1.blocks, (blockTypes f.1).isSome)
    (ha : ∀ f ∈ ba.2.blocks, (blockTypes f.1).isSome) :
    (∀ f ∈ (splitPropertiedStep num ba e).1.blocks, (blockTypes f.1).isSome)
      ∧ (∀ f ∈ (splitPropertiedStep num ba e).2.blocks, (blockTypes f.1).isSome) := by
  dsimp only [splitPropertiedStep]
  constructor <;> split
  · exact known_objSet _ _ _ he hb
  · exact hb
  · exact known_objSet _ _ _ he ha
  · exact ha

theorem splitContinuousStep_known (num : Int) (ba : RangeModel × RangeModel)
    (e : String × BlockData) (he : (blockTypes e.1).isSome)
    (hb : ∀ f ∈ ba.1.blocks, (blockTypes f.1).isSome)
    (ha : ∀ f ∈ ba.2.blocks, (blockTypes f.1).isSome) :
    (∀ f ∈ (splitContinuousStep num ba e).1.blocks, (blockTypes f.1).isSome)
      ∧ (∀ f ∈ (splitContinuousStep num ba e).2.blocks, (blockTypes f.1).isSome) := by
  dsimp only [splitContinuousStep]
  exact ⟨known_objSet _ _ _ he hb, known_objSet _ _ _ he ha⟩

theorem splitSingledStep_known (num : Int) (ba : RangeModel × RangeModel)
    (e : String × BlockData) (he : (blockTypes e.1).isSome)
    (hb : ∀ f ∈ ba.1.blocks, (blockTypes f.1).isSome)
    (ha : ∀ f ∈ ba.2.blocks, (blockTypes f.1).isSome) :
    (∀ f ∈ (splitSingledStep num ba e).1.blocks, (blockTypes f.1).isSome)
      ∧ (∀ f ∈ (splitSingledStep num ba e).2.blocks, (blockTypes f.1).isSome) := by
  dsimp only [splitSingledStep]
  constructor <;> split
  · exact known_objSet _ _ _ he hb
  · exact hb
  · exact known_objSet _ _ _ he ha
  · exact ha

theorem foldl_splitPropertiedStep_known (num : Int) (es : List (String × BlockData))
    (ba : RangeModel × RangeModel) (hes : ∀ e ∈ es, (blockTypes e.1).isSome)
    (hb : ∀ f ∈ ba.1.blocks, (blockTypes f.1).isSome)
    (ha : ∀ f ∈ ba.2.blocks, (blockTypes f.1).isSome) :
    (∀ f ∈ (es.foldl (splitPropertiedStep num) ba).1.blocks, (blockTypes f.1).isSome)
      ∧ (∀ f ∈ (es.foldl (splitPropertiedStep num) ba).2.blocks, (blockTypes f.1).isSome) := by
  induction es generalizing ba with
  | nil => exact ⟨hb, ha⟩
  | cons e rest ih =>
    rw [List.foldl_cons]
    obtain ⟨g1, g2⟩ := splitPropertiedStep_known num ba e (hes e (by simp)) hb ha
    exact ih (splitPropertiedStep num ba e) (fun f hf => hes f (List.mem_cons_of_mem _ hf)) g1 g2

theorem foldl_splitContinuousStep_known (num : Int) (es : List (String × BlockData))
    (ba : RangeModel × RangeModel) (hes : ∀ e ∈ es, (blockTypes e.1).isSome)
    (hb : ∀ f ∈ ba.1.blocks, (blockTypes f.1).isSome)
    (ha : ∀ f ∈ ba.2.blocks, (blockTypes f.1).isSome) :
    (∀ f ∈ (es.foldl (splitContinuousStep num) ba).1.blocks, (blockTypes f.1).isSome)
      ∧ (∀ f ∈ (es.foldl (splitContinuousStep num) ba).2.blocks, (blockTypes f.1).isSome) := by
  induction es generalizing ba with
  | nil => exact ⟨hb, ha⟩
  | cons e rest ih =>
    rw [List.foldl_cons]
    obtain ⟨g1, g2⟩ := splitContinuousStep_known num ba e (hes e (by simp)) hb ha
    exact ih (splitContinuousStep num ba e) (fun f hf => hes f (List.mem_cons_of_mem _ hf)) g1 g2

theorem foldl_splitSingledStep_known (num : Int) (es : List (String × BlockData))
    (ba : RangeModel × RangeModel) (hes : ∀ e ∈ es, (blockTypes e.1).isSome)
    (hb : ∀ f ∈ ba.1.blocks, (blockTypes f.1).isSome)
    (ha : ∀ f ∈ ba.2.blocks, (blockTypes f.1).isSome) :
    (∀ f ∈ (es.foldl (splitSingledStep num) ba).1.blocks, (blockTypes f.1).isSome)
      ∧ (∀ f ∈ (es.foldl (splitSingledStep num) ba).2.blocks, (blockTypes f.1).isSome) := by
  induction es generalizing ba with
  | nil => exact ⟨hb, ha⟩
  | cons e rest ih =>
    rw [List.foldl_cons]
    obtain ⟨g1, g2⟩ := splitSingledStep_known num ba e (hes e (by simp)) hb ha
    exact ih (splitSingledStep num ba e) (fun f hf => hes f (List.mem_cons_of_mem _ hf)) g1 g2

theorem concat_of_known (b a : RangeModel)
    (hb : ∀ f ∈ b.blocks, (blockTypes f.1).isSome)
    (ha : ∀ f ∈ a.blocks, (blockTypes f.1).isSome) :
    ∃ m, concat b a = some m ∧ m.text = b.text ++ a.text := by
  unfold concat concatPropertiedBlocks concatContinuousBlocks concatSingledBlocks
  rw [getBlocksOfType_eq_some a.blocks .propertied ha,
    getBlocksOfType_eq_some b.blocks .propertied hb,
    getBlocksOfType_eq_some a.blocks .continuous ha,
    getBlocksOfType_eq_some b.blocks .continuous hb,
    getBlocksOfType_eq_some a.blocks .singled ha,
    getBlocksOfType_eq_some b.blocks .singled hb]
  exact ⟨_, rfl, rfl⟩

theorem split_texts (M : RangeModel) (num : Int) (b a : RangeModel)
    (hsplit : split M num = some (b, a)) :
    b.text = jsSubstrLen M.text 0 num ∧ a.text = jsSubstrFrom M.text num := by
  have hknown : ∀ e ∈ M.blocks, (blockTypes e.1).isSome := by
    intro e he
    rcases hbt : blockTypes e.1 with _ | tt
    · rw [split_eq_none_of_bad M num e he hbt] at hsplit
      exact absurd hsplit (by simp)
    · simp
  rw [split_eq_folds M num hknown] at hsplit
  have hba := Option.some.inj hsplit
  have t1 := foldl_splitPropertiedStep_text num
    (M.blocks.filter (fun e =>
      ((blockTypes e.1).map (fun t => t.set)) == some BKind.propertied))
    ({ text := jsSubstrLen M.text 0 num, blocks := [] },
     { text := jsSubstrFrom M.text num, blocks := [] })
  have t2 := foldl_splitContinuousStep_text num
    (M.blocks.filter (fun e =>
      ((blockTypes e.1).map (fun t => t.set)) == some BKind.continuous))
    ((M.blocks.filter (fun e =>
        ((blockTypes e.1).map (fun t => t.set)) == some BKind.propertied)).foldl
      (splitPropertiedStep num)
      ({ text := jsSubstrLen M.text 0 num, blocks := [] },
       { text := jsSubstrFrom M.text num, blocks := [] }))
  have t3 := foldl_splitSingledStep_text num
    (M.blocks.filter (fun e =>
      ((blockTypes e.1).map (fun t => t.set)) == some BKind.singled))
    ((M.blocks.filter (fun e =>
        ((blockTypes e.1).map (fun t => t.set)) == some BKind.continuous)).foldl
      (splitContinuousStep num)
      ((M.blocks.filter (fun e =>
          ((blockTypes e.1).map (fun t => t.set)) == some BKind.propertied)).foldl
        (splitPropertiedStep num)
        ({ text := jsSubstrLen M.text 0 num, blocks := [] },
         { text := jsSubstrFrom M.text num, blocks := [] })))
  rw [hba] at t3
  exact ⟨t3.1.trans (t2.1.trans t1.1), t3.2.trans (t2.2.trans t1.2)⟩

theorem jsSubstrLen_zero (s : List Char) (len : Int) :
    jsSubstrLen s 0 len = s.take len.toNat := by
  unfold jsSubstrLen jsSubstrFrom
  rw [if_neg (by omega)]
  simp

theorem jsSubstrFrom_nonneg (s : List Char) (start : Int) (h : 0 ≤ start) :
    jsSubstrFrom s start = s.drop start.toNat := by
  unfold jsSubstrFrom
  rw [if_neg (by omega)]

/-- Claim C2: for every model and every offset k with 0 at most k at most
text.length, the two halves produced by split concatenate back to a model
whose text is exactly model.text.  (The upper bound is part of the claim; the
lower bound is what the proof needs, since substr treats a negative offset as
counting back from the end.) -/
theorem c2_concat_split_text (M : RangeModel) (k : Int) (b a : RangeModel)
    (h0 : 0 ≤ k) (_h1 : k ≤ (M.text.length : Int))
    (hsplit : split M k = some (b, a)) :
    ∃ m, concat b a = some m ∧ m.text = M.text := by
  have hsplit0 := hsplit
  have hknown : ∀ e ∈ M.blocks, (blockTypes e.1).isSome := by
    intro e he
    rcases hbt : blockTypes e.1 with _ | tt
    · rw [split_eq_none_of_bad M k e he hbt] at hsplit
      exact absurd hsplit (by simp)
    · simp
  rw [split_eq_folds M k hknown] at hsplit
  have hba := Option.some.inj hsplit
  have hkP : ∀ e ∈ M.blocks.filter (fun e =>
      ((blockTypes e.1).map (fun t => t.set)) == some BKind.propertied),
      (blockTypes e.1).isSome := fun e he => hknown e (List.mem_of_mem_filter he)
  have hkC : ∀ e ∈ M.blocks.filter (fun e =>
      ((blockTypes e.1).map (fun t => t.set)) == some BKind.continuous),
      (blockTypes e.1).isSome := fun e he => hknown e (List.mem_of_mem_filter he)
  have hkS : ∀ e ∈ M.blocks.filter (fun e =>
      ((blockTypes e.1).map (fun t => t.set)) == some BKind.singled),
      (blockTypes e.1).isSome := fun e he => hknown e (List.mem_of_mem_filter he)
  have hP := foldl_splitPropertiedStep_known k
    (M.blocks.filter (fun e =>
      ((blockTypes e.1).map (fun t => t.set)) == some BKind.propertied))
    ({ text := jsSubstrLen M.text 0 k, blocks := [] },
     { text := jsSubstrFrom M.text k, blocks := [] })
    hkP (by simp) (by simp)
  have hC := foldl_splitContinuousStep_known k
    (M.blocks.filter (fun e =>
      ((blockTypes e.1).map (fun t => t.set)) == some BKind.continuous))
    ((M.blocks.filter (fun e =>
        ((blockTypes e.1).map (fun t => t.set)) == some BKind.propertied)).foldl
      (splitPropertiedStep k)
      ({ text := jsSubstrLen M.text 0 k, blocks := [] },
       { text := jsSubstrFrom M.text k, blocks := [] }))
    hkC hP.1 hP.2
  have hS := foldl_splitSingledStep_known k
    (M.blocks.filter (fun e =>
      ((blockTypes e.1).map (fun t => t.set)) == some BKind.singled))
    ((M.blocks.filter (fun e =>
        ((blockTypes e.1).map (fun t => t.set)) == some BKind.continuous)).foldl
      (splitContinuousStep k)
      ((M.blocks.filter (fun e =>
          ((blockTypes e.1).map (fun t => t.set)) == some BKind.propertied)).foldl
        (splitPropertiedStep k)
        ({ text := jsSubstrLen M.text 0 k, blocks := [] },
         { text := jsSubstrFrom M.text k, blocks := [] })))
    hkS hC.1 hC.2
  rw [hba] at hS
  obtain ⟨m, hm, htext⟩ := concat_of_known b a hS.1 hS.2
  refine ⟨m, hm, ?_⟩
  rw [htext]
  obtain ⟨hbt, hat⟩ := split_texts M k b a hsplit0
  rw [hbt, hat, jsSubstrLen_zero, jsSubstrFrom_nonneg _ _ h0]
  exact List.take_append_drop _ _

/-- The model of the C2 witness. -/
def c2wM : RangeModel :=
  { text := "abcdef".toList, blocks := [("bold", .cont [0, 6])] }

/-- The before half of splitting c2wM at 3. -/
def c2wB : RangeModel :=
  { text := "abc".toList, blocks := [("bold", .cont [0, 3])] }

/-- The after half of splitting c2wM at 3. -/
def c2wA : RangeModel :=
  { text := "def".toList, blocks := [("bold", .cont [0, 3])] }

/-- Witness for C2 at the spec's example model split at 3. -/
theorem c2_concat_split_text_witness :
    ((0 : Int) ≤ 3 ∧ (3 : Int) ≤ (c2wM.text.length : Int)
        ∧ split c2wM 3 = some (c2wB, c2wA))
      ∧ ∃ m, concat c2wB c2wA = some m ∧ m.text = c2wM.text :=
  ⟨⟨by decide, by decide, by decide⟩,
    c2_concat_split_text c2wM 3 c2wB c2wA (by decide) (by decide) (by decide)⟩

/-! ### Correctness of the binary search -/

theorem pairwise_getD (list : List Int) (hp : List.Pairwise (· < ·) list) (i j : Nat)
    (hij : i < j) (hj : j < list.length) : list.getD i 0 < list.getD j 0 := by
  have hi : i < list.length := lt_trans hij hj
  rw [List.getD_eq_getElem list 0 hi, List.getD_eq_getElem list 0 hj]
  have := List.pairwise_iff_get.mp hp ⟨i, hi⟩ ⟨j, hj⟩ hij
  simpa using this

theorem countP_lt_of_bound (list : List Int) (value : Int) :
    ∀ (c : Nat), c ≤ list.length →
      (∀ j : Nat, j < c → list.getD j 0 < value) →
      (∀ j : Nat, c ≤ j → j < list.length → ¬ list.getD j 0 < value) →
      list.countP (fun x => decide (x < value)) = c := by
  induction list with
  | nil =>
    intro c hc _ _
    have : c = 0 := by simpa using hc
    simp [this]
  | cons x xs ih =>
    intro c hc hlt hge
    rw [List.countP_cons]
    cases c with
    | zero =>
      have hx : ¬ x < value := by simpa using hge 0 (by omega) (by simp)
      rw [ih 0 (by omega) (fun j hj => absurd hj (by omega))
        (fun j _ hj => by simpa using hge (j + 1) (by omega) (by simpa using hj))]
      simp [hx]
    | succ c2 =>
      have hx : x < value := by simpa using hlt 0 (by omega)
      rw [ih c2 (by simpa using hc) (fun j hj => by simpa using hlt (j + 1) (by omega))
        (fun j hj hlen => by simpa using hge (j + 1) (by omega) (by simpa using hlen))]
      simp [hx]

theorem binSearchGo_eq (list : List Int) (value : Int) (hp : List.Pairwise (· < ·) list) :
    ∀ (fuel : Nat) (low high : Int), 0 ≤ low → low ≤ high + 1 → high < (list.length : Int) →
      ((high + 1 - low).toNat < fuel) →
      (∀ j : Nat, j < list.length → (j : Int) < low → list.getD j 0 < value) →
      (∀ j : Nat, j < list.length → high < (j : Int) → value < list.getD j 0) →
      binSearchGo list value fuel low high
        = ((list.countP (fun x => decide (x < value)) : Nat) : Int) := by
  intro fuel
  induction fuel with
  | zero =>
    intro low high _ _ _ hfuel _ _
    exact absurd hfuel (by omega)
  | succ n ih =>
    intro low high h0 h1 h2 hfuel hlow hhigh
    rw [binSearchGo]
    by_cases hlh : low ≤ high
    · rw [if_pos hlh]
      have hmid0 : 0 ≤ low + (((high - low).toNat / 2 : Nat) : Int) := by omega
      have hmidh : low + (((high - low).toNat / 2 : Nat) : Int) ≤ high := by omega
      set midpoint : Int := low + (((high - low).toNat / 2 : Nat) : Int) with hmiddef
      have hmidlen : midpoint.toNat < list.length := by omega
      rcases lt_trichotomy (list.getD midpoint.toNat 0) value with hc | hc | hc
      · rw [if_pos hc]
        refine ih (midpoint + 1) high (by omega) (by omega) h2 (by omega) ?_ hhigh
        intro j hj hjlow
        rcases lt_trichotomy (j : Int) midpoint with hjm | hjm | hjm
        · calc list.getD j 0 < list.getD midpoint.toNat 0 :=
                pairwise_getD list hp j midpoint.toNat (by omega) hmidlen
            _ < value := hc
        · have : j = midpoint.toNat := by omega
          rw [this]
          exact hc
        · exact absurd hjlow (by omega)
      · rw [if_neg (by omega), if_neg (by omega)]
        have hcountP : list.countP (fun x => decide (x < value)) = midpoint.toNat := by
          refine countP_lt_of_bound list value midpoint.toNat (by omega) ?_ ?_
          · intro j hj
            calc list.getD j 0 < list.getD midpoint.toNat 0 :=
                  pairwise_getD list hp j midpoint.toNat (by omega) hmidlen
              _ = value := hc
          · intro j hjm hjlen
            rcases Nat.eq_or_lt_of_le hjm with hjm2 | hjm2
            · rw [← hjm2, hc]
              omega
            · have := pairwise_getD list hp midpoint.toNat j hjm2 hjlen
              omega
        rw [hcountP]
        omega
      · rw [if_neg (by omega), if_pos hc]
        refine ih low (midpoint - 1) h0 (by omega) (by omega) (by omega) hlow ?_
        intro j hj hjhigh
        rcases lt_trichotomy (j : Int) midpoint with hjm | hjm | hjm
        · exact absurd hjhigh (by omega)
        · have : j = midpoint.toNat := by omega
          rw [this]
          exact hc
        · calc value < list.getD midpoint.toNat 0 := hc
            _ < list.getD j 0 := pairwise_getD list hp midpoint.toNat j (by omega) hj
    · rw [if_neg hlh]
      have hcountP : list.countP (fun x => decide (x < value)) = low.toNat := by
        refine countP_lt_of_bound list value low.toNat (by omega) ?_ ?_
        · intro j hj
          exact hlow j (by omega) (by omega)
        · intro j hjm hjlen
          have := hhigh j hjlen (by omega)
          omega
      rw [hcountP]
      omega

theorem getBinarySortedInsertPosition_eq_countP (list : List Int) (value : Int)
    (hp : List.Pairwise (· < ·) list) :
    getBinarySortedInsertPosition list value
      = ((list.countP (fun x => decide (x < value)) : Nat) : Int) := by
  unfold getBinarySortedInsertPosition
  refine binSearchGo_eq list value hp (list.length + 1) 0 ((list.length : Int) - 1)
    (by omega) (by omega) (by omega) (by omega) ?_ ?_
  · intro j _ hj
    exact absurd hj (by omega)
  · intro j hj hjhigh
    exact absurd hjhigh (by omega)

/-! ### Key-nodup preservation and objAssign lookups -/

theorem nodup_keys_objSet (bs : List (String × BlockData)) (n : String) (v : BlockData)
    (h : (bs.map Prod.fst).Nodup) : ((objSet bs n v).map Prod.fst).Nodup := by
  induction bs with
  | nil => simp [objSet]
  | cons e rest ih =>
    rw [List.map_cons, List.nodup_cons] at h
    by_cases he : e.1 = n
    · rw [objSet_cons_of_eq _ _ _ _ he]
      rw [List.map_cons, List.nodup_cons]
      exact ⟨by rw [← he]; exact h.1, h.2⟩
    · rw [objSet_cons_of_ne _ _ _ _ he]
      rw [List.map_cons, List.nodup_cons]
      refine ⟨?_, ih h.2⟩
      intro hmem
      obtain ⟨f, hf, hff⟩ := List.mem_map.mp hmem
      rcases keys_objSet rest n e.1 v ⟨f, hf, hff⟩ with hh | ⟨g, hg, hgg⟩
      · exact he hh
      · exact h.1 (List.mem_map.mpr ⟨g, hg, hgg⟩)

theorem splitPropertiedStep_nodup (num : Int) (ba : RangeModel × RangeModel)
    (e : String × BlockData)
    (hb : (ba.1.blocks.map Prod.fst).Nodup) (ha : (ba.2.blocks.map Prod.fst).Nodup) :
    ((splitPropertiedStep num ba e).1.blocks.map Prod.fst).Nodup
      ∧ ((splitPropertiedStep num ba e).2.blocks.map Prod.fst).Nodup := by
  dsimp only [splitPropertiedStep]
  constructor <;> split
  · exact nodup_keys_objSet _ _ _ hb
  · exact hb
  · exact nodup_keys_objSet _ _ _ ha
  · exact ha

theorem splitContinuousStep_nodup (num : Int) (ba : RangeModel × RangeModel)
    (e : String × BlockData)
    (hb : (ba.1.blocks.map Prod.fst).Nodup) (ha : (ba.2.blocks.map Prod.fst).Nodup) :
    ((splitContinuousStep num ba e).1.blocks.map Prod.fst).Nodup
      ∧ ((splitContinuousStep num ba e).2.blocks.map Prod.fst).Nodup := by
  dsimp only [splitContinuousStep]
  exact ⟨nodup_keys_objSet _ _ _ hb, nodup_keys_objSet _ _ _ ha⟩

theorem splitSingledStep_nodup (num : Int) (ba : RangeModel × RangeModel)
    (e : String × BlockData)
    (hb : (ba.1.blocks.map Prod.fst).Nodup) (ha : (ba.2.blocks.map Prod.fst).Nodup) :
    ((splitSingledStep num ba e).1.blocks.map Prod.fst).Nodup
      ∧ ((splitSingledStep num ba e).2.blocks.map Prod.fst).Nodup := by
  dsimp only [splitSingledStep]
  constructor <;> split
  · exact nodup_keys_objSet _ _ _ hb
  · exact hb
  · exact nodup_keys_objSet _ _ _ ha
  · exact ha

theorem foldl_splitPropertiedStep_nodup (num : Int) (es : List (String × BlockData))
    (ba : RangeModel × RangeModel)
    (hb : (ba.1.blocks.map Prod.fst).Nodup) (ha : (ba.2.blocks.map Prod.fst).Nodup) :
    ((es.foldl (splitPropertiedStep num) ba).1.blocks.map Prod.fst).Nodup
      ∧ ((es.foldl (splitPropertiedStep num) ba).2.blocks.map Prod.fst).Nodup := by
  induction es generalizing ba with
  | nil => exact ⟨hb, ha⟩
  | cons e rest ih =>
    rw [List.foldl_cons]
    obtain ⟨g1, g2⟩ := splitPropertiedStep_nodup num ba e hb ha
    exact ih (splitPropertiedStep num ba e) g1 g2

theorem foldl_splitContinuousStep_nodup (num : Int) (es : List (String × BlockData))
    (ba : RangeModel × RangeModel)
    (hb : (ba.1.blocks.map Prod.fst).Nodup) (ha : (ba.2.blocks.map Prod.fst).Nodup) :
    ((es.foldl (splitContinuousStep num) ba).1.blocks.map Prod.fst).Nodup
      ∧ ((es.foldl (splitContinuousStep num) ba).2.blocks.map Prod.fst).Nodup := by
  induction es generalizing ba with
  | nil => exact ⟨hb, ha⟩
  | cons e rest ih =>
    rw [List.foldl_cons]
    obtain ⟨g1, g2⟩ := splitContinuousStep_nodup num ba e hb ha
    exact ih (splitContinuousStep num ba e) g1 g2

theorem foldl_splitSingledStep_nodup (num : Int) (es : List (String × BlockData))
    (ba : RangeModel × RangeModel)
    (hb : (ba.1.blocks.map Prod.fst).Nodup) (ha : (ba.2.blocks.map Prod.fst).Nodup) :
    ((es.foldl (splitSingledStep num) ba).1.blocks.map Prod.fst).Nodup
      ∧ ((es.foldl (splitSingledStep num) ba).2.blocks.map Prod.fst).Nodup := by
  induction es generalizing ba with
  | nil => exact ⟨hb, ha⟩
  | cons e rest ih =>
    rw [List.foldl_cons]
    obtain ⟨g1, g2⟩ := splitSingledStep_nodup num ba e hb ha
    exact ih (splitSingledStep num ba e) g1 g2

theorem split_nodup (M : RangeModel) (num : Int) (b a : RangeModel)
    (hsplit : split M num = some (b, a)) :
    (b.blocks.map Prod.fst).Nodup ∧ (a.blocks.map Prod.fst).Nodup := by
  have hknown : ∀ e ∈ M.blocks, (blockTypes e.1).isSome := by
    intro e he
    rcases hbt : blockTypes e.1 with _ | tt
    · rw [split_eq_none_of_bad M num e he hbt] at hsplit
      exact absurd hsplit (by simp)
    · simp
  rw [split_eq_folds M num hknown] at hsplit
  have hba := Option.some.inj hsplit
  have h1 := foldl_splitPropertiedStep_nodup num
    (M.blocks.filter (fun e =>
      ((blockTypes e.1).map (fun t => t.set)) == some BKind.propertied))
    ({ text := jsSubstrLen M.text 0 num, blocks := [] },
     { text := jsSubstrFrom M.text num, blocks := [] })
    (by simp) (by simp)
  have h2 := foldl_splitContinuousStep_nodup num
    (M.blocks.filter (fun e =>
      ((blockTypes e.1).map (fun t => t.set)) == some BKind.continuous))
    ((M.blocks.filter (fun e =>
        ((blockTypes e.1).map (fun t => t.set)) == some BKind.propertied)).foldl
      (splitPropertiedStep num)
      ({ text := jsSubstrLen M.text 0 num, blocks := [] },
       { text := jsSubstrFrom M.text num, blocks := [] }))
    h1.1 h1.2
  have h3 := foldl_splitSingledStep_nodup num
    (M.blocks.filter (fun e =>
      ((blockTypes e.1).map (fun t => t.set)) == some BKind.singled))
    ((M.blocks.filter (fun e =>
        ((blockTypes e.1).map (fun t => t.set)) == some BKind.continuous)).foldl
      (splitContinuousStep num)
      ((M.blocks.filter (fun e =>
          ((blockTypes e.1).map (fun t => t.set)) == some BKind.propertied)).foldl
        (splitPropertiedStep num)
        ({ text := jsSubstrLen M.text 0 num, blocks := [] },
         { text := jsSubstrFrom M.text num, blocks := [] })))
    h2.1 h2.2
  rw [hba] at h3
  exact h3

theorem objGet_append_mid (x y : List (String × BlockData)) (name : String) (v : BlockData)
    (hx : ∀ e ∈ x, e.1 ≠ name) :
    objGet (x ++ (name, v) :: y) name = some v := by
  rw [objGet_append_left x _ name ((objGet_eq_none_iff x name).mpr hx)]
  exact objGet_cons_of_eq _ _ _ rfl

theorem objGet_objAssign_none (dst src : List (String × BlockData)) (name : String)
    (h : ∀ e ∈ src, e.1 ≠ name) :
    objGet (objAssign dst src) name = objGet dst name := by
  induction src generalizing dst with
  | nil => rfl
  | cons e rest ih =>
    show objGet (objAssign (objSet dst e.1 e.2) rest) name = objGet dst name
    rw [ih (objSet dst e.1 e.2) (fun f hf => h f (List.mem_cons_of_mem _ hf))]
    exact objGet_objSet_other _ _ _ _ (Ne.symm (h e (by simp)))

theorem objGet_objAssign_hit (dst src : List (String × BlockData)) (name : String)
    (v : BlockData) (h : objGet src name = some v) (hnd : (src.map Prod.fst).Nodup) :
    objGet (objAssign dst src) name = some v := by
  induction src generalizing dst with
  | nil => simp [objGet] at h
  | cons e rest ih =>
    rw [List.map_cons, List.nodup_cons] at hnd
    by_cases he : e.1 = name
    · rw [objGet_cons_of_eq _ _ _ he] at h
      have hv : e.2 = v := Option.some.inj h
      show objGet (objAssign (objSet dst e.1 e.2) rest) name = some v
      rw [objGet_objAssign_none (objSet dst e.1 e.2) rest name
        (fun f hf hc => hnd.1 (by rw [he, ← hc]; exact List.mem_map.mpr ⟨f, hf, rfl⟩))]
      rw [← he, ← hv]
      exact objGet_objSet_self _ _ _
    · rw [objGet_cons_of_ne _ _ _ he] at h
      show objGet (objAssign (objSet dst e.1 e.2) rest) name = some v
      exact ih (objSet dst e.1 e.2) h hnd.2

/-! ### Fold lemmas for the concat callbacks -/

theorem concatContinuousStep_get_other (num : Int) (acc : List (String × BlockData))
    (e : String × BlockData) (name : String) (h : e.1 ≠ name) :
    objGet (concatContinuousStep num acc e) name = objGet acc name := by
  unfold concatContinuousStep
  rcases objGet acc e.1 with _ | d
  · exact objGet_objSet_other _ _ _ _ (Ne.symm h)
  · dsimp only
    split
    · exact objGet_objSet_other _ _ _ _ (Ne.symm h)
    · exact objGet_objSet_other _ _ _ _ (Ne.symm h)

theorem concatContinuousStep_keys (num : Int) (acc : List (String × BlockData))
    (e : String × BlockData) (f : String × BlockData)
    (hf : f ∈ concatContinuousStep num acc e) :
    f.1 = e.1 ∨ ∃ g ∈ acc, g.1 = f.1 := by
  unfold concatContinuousStep at hf
  rcases hg : objGet acc e.1 with _ | d
  · rw [hg] at hf
    exact keys_objSet acc e.1 f.1 _ ⟨f, hf, rfl⟩
  · rw [hg] at hf
    dsimp only at hf
    split at hf
    · exact keys_objSet acc e.1 f.1 _ ⟨f, hf, rfl⟩
    · exact keys_objSet acc e.1 f.1 _ ⟨f, hf, rfl⟩

theorem concatContinuousStep_nodup (num : Int) (acc : List (String × BlockData))
    (e : String × BlockData) (h : (acc.map Prod.fst).Nodup) :
    ((concatContinuousStep num acc e).map Prod.fst).Nodup := by
  unfold concatContinuousStep
  rcases objGet acc e.1 with _ | d
  · exact nodup_keys_objSet _ _ _ h
  · dsimp only
    split
    · exact nodup_keys_objSet _ _ _ h
    · exact nodup_keys_objSet _ _ _ h

theorem foldl_concatContinuousStep_get_of_notmem (num : Int)
    (es : List (String × BlockData)) (acc : List (String × BlockData)) (name : String)
    (h : ∀ e ∈ es, e.1 ≠ name) :
    objGet (es.foldl (concatContinuousStep num) acc) name = objGet acc name := by
  induction es generalizing acc with
  | nil => rfl
  | cons e rest ih =>
    rw [List.foldl_cons]
    rw [ih (concatContinuousStep num acc e) (fun f hf => h f (List.mem_cons_of_mem _ hf))]
    exact concatContinuousStep_get_other num acc e name (h e (by simp))

theorem concatContinuousStep_get_self (num : Int) (acc : List (String × BlockData))
    (e : String × BlockData) :
    objGet (concatContinuousStep num acc e) e.1
      = some (match objGet acc e.1 with
          | some d =>
            if e.2.contList.getLast? == some num ∧ d.contList.head? == some num then
              BlockData.cont (e.2.contList.dropLast ++ d.contList.drop 1)
            else BlockData.cont (e.2.contList ++ d.contList)
          | none => BlockData.cont e.2.contList) := by
  unfold concatContinuousStep
  rcases objGet acc e.1 with _ | d
  · exact objGet_objSet_self _ _ _
  · dsimp only
    split
    · rw [objGet_objSet_self]
    · rw [objGet_objSet_self]

theorem foldl_concatContinuousStep_get_mem (num : Int)
    (es1 es2 : List (String × BlockData)) (d : BlockData)
    (acc : List (String × BlockData)) (name : String)
    (h1 : ∀ e ∈ es1, e.1 ≠ name) (h2 : ∀ e ∈ es2, e.1 ≠ name) :
    objGet ((es1 ++ (name, d) :: es2).foldl (concatContinuousStep num) acc) name
      = some (match objGet acc name with
          | some dd =>
            if d.contList.getLast? == some num ∧ dd.contList.head? == some num then
              BlockData.cont (d.contList.dropLast ++ dd.contList.drop 1)
            else BlockData.cont (d.contList ++ dd.contList)
          | none => BlockData.cont d.contList) := by
  rw [List.foldl_append, List.foldl_cons]
  rw [foldl_concatContinuousStep_get_of_notmem num es2 _ name h2]
  have hs := concatContinuousStep_get_self num (es1.foldl (concatContinuousStep num) acc)
    (name, d)
  rw [foldl_concatContinuousStep_get_of_notmem num es1 acc name h1] at hs
  exact hs

theorem concatSingledStep_keys (acc : List (String × BlockData))
    (e : String × BlockData) (f : String × BlockData)
    (hf : f ∈ concatSingledStep acc e) :
    f.1 = e.1 ∨ ∃ g ∈ acc, g.1 = f.1 := by
  unfold concatSingledStep at hf
  rcases hg : objGet acc e.1 with _ | d
  · rw [hg] at hf
    exact keys_objSet acc e.1 f.1 _ ⟨f, hf, rfl⟩
  · rw [hg] at hf
    exact keys_objSet acc e.1 f.1 _ ⟨f, hf, rfl⟩

theorem foldl_concatSingledStep_keys (es : List (String × BlockData))
    (acc : List (String × BlockData)) (f : String × BlockData)
    (hf : f ∈ es.foldl concatSingledStep acc) :
    (∃ g ∈ es, g.1 = f.1) ∨ ∃ g ∈ acc, g.1 = f.1 := by
  induction es generalizing acc with
  | nil => exact Or.inr ⟨f, hf, rfl⟩
  | cons e rest ih =>
    rw [List.foldl_cons] at hf
    rcases ih (concatSingledStep acc e) hf with ⟨g, hg, hgf⟩ | ⟨g, hg, hgf⟩
    · exact Or.inl ⟨g, List.mem_cons_of_mem _ hg, hgf⟩
    · rcases concatSingledStep_keys acc e g hg with h | ⟨g2, hg2, hg2f⟩
      · exact Or.inl ⟨e, by simp, by rw [← hgf, h]⟩
      · exact Or.inr ⟨g2, hg2, by rw [hg2f, hgf]⟩

theorem foldl_concatContinuousStep_nodup (num : Int) (es : List (String × BlockData))
    (acc : List (String × BlockData)) (h : (acc.map Prod.fst).Nodup) :
    (((es.foldl (concatContinuousStep num) acc)).map Prod.fst).Nodup := by
  induction es generalizing acc with
  | nil => exact h
  | cons e rest ih =>
    rw [List.foldl_cons]
    exact ih (concatContinuousStep num acc e) (concatContinuousStep_nodup num acc e h)

theorem split_known (M : RangeModel) (num : Int) (b a : RangeModel)
    (hsplit : split M num = some (b, a)) :
    (∀ e ∈ b.blocks, (blockTypes e.1).isSome)
      ∧ (∀ e ∈ a.blocks, (blockTypes e.1).isSome) := by
  have hknown : ∀ e ∈ M.blocks, (blockTypes e.1).isSome := by
    intro e he
    rcases hbt : blockTypes e.1 with _ | tt
    · rw [split_eq_none_of_bad M num e he hbt] at hsplit
      exact absurd hsplit (by simp)
    · simp
  rw [split_eq_folds M num hknown] at hsplit
  have hba := Option.some.inj hsplit
  have hkP : ∀ e ∈ M.blocks.filter (fun e =>
      ((blockTypes e.1).map (fun t => t.set)) == some BKind.propertied),
      (blockTypes e.1).isSome := fun e he => hknown e (List.mem_of_mem_filter he)
  have hkC : ∀ e ∈ M.blocks.filter (fun e =>
      ((blockTypes e.1).map (fun t => t.set)) == some BKind.continuous),
      (blockTypes e.1).isSome := fun e he => hknown e (List.mem_of_mem_filter he)
  have hkS : ∀ e ∈ M.blocks.filter (fun e =>
      ((blockTypes e.1).map (fun t => t.set)) == some BKind.singled),
      (blockTypes e.1).isSome := fun e he => hknown e (List.mem_of_mem_filter he)
  have hP := foldl_splitPropertiedStep_known num
    (M.blocks.filter (fun e =>
      ((blockTypes e.1).map (fun t => t.set)) == some BKind.propertied))
    ({ text := jsSubstrLen M.text 0 num, blocks := [] },
     { text := jsSubstrFrom M.text num, blocks := [] })
    hkP (by simp) (by simp)
  have hC := foldl_splitContinuousStep_known num
    (M.blocks.filter (fun e =>
      ((blockTypes e.1).map (fun t => t.set)) == some BKind.continuous))
    ((M.blocks.filter (fun e =>
        ((blockTypes e.1).map (fun t => t.set)) == some BKind.propertied)).foldl
      (splitPropertiedStep num)
      ({ text := jsSubstrLen M.text 0 num, blocks := [] },
       { text := jsSubstrFrom M.text num, blocks := [] }))
    hkC hP.1 hP.2
  have hS := foldl_splitSingledStep_known num
    (M.blocks.filter (fun e =>
      ((blockTypes e.1).map (fun t => t.set)) == some BKind.singled))
    ((M.blocks.filter (fun e =>
        ((blockTypes e.1).map (fun t => t.set)) == some BKind.continuous)).foldl
      (splitContinuousStep num)
      ((M.blocks.filter (fun e =>
          ((blockTypes e.1).map (fun t => t.set)) == some BKind.propertied)).foldl
        (splitPropertiedStep num)
        ({ text := jsSubstrLen M.text 0 num, blocks := [] },
         { text := jsSubstrFrom M.text num, blocks := [] })))
    hkS hC.1 hC.2
  rw [hba] at hS
  exact hS

theorem list_take_two_drop (L : List Int) (i : Nat) (h : 2 * i + 1 < L.length) :
    L = L.take (2 * i) ++ L.getD (2 * i) 0 :: L.getD (2 * i + 1) 0 :: L.drop (2 * i + 2) := by
  rw [List.getD_eq_getElem L 0 (by omega), List.getD_eq_getElem L 0 h]
  conv_lhs => rw [← List.take_append_drop (2 * i) L]
  congr 1
  rw [List.drop_eq_getElem_cons (show 2 * i < L.length by omega)]
  congr 1
  rw [List.drop_eq_getElem_cons (show 2 * i + 1 < L.length from h)]

theorem concat_eq_folds (b a : RangeModel)
    (hb : ∀ e ∈ b.blocks, (blockTypes e.1).isSome)
    (ha : ∀ e ∈ a.blocks, (blockTypes e.1).isSome) :
    ∃ m, concat b a = some m ∧ m.text = b.text ++ a.text
      ∧ m.blocks = objAssign (objAssign (objAssign []
        ((b.blocks.filter (fun e =>
            ((blockTypes e.1).map (fun t => t.set)) == some BKind.propertied)).foldl
          concatPropertiedStep
          ((a.blocks.filter (fun e =>
              ((blockTypes e.1).map (fun t => t.set)) == some BKind.propertied)).map
            (fun e => (e.1, BlockData.prop (e.2.propList.map (fun block =>
              { block with
                  start := block.start + (b.text.length : Int)
                  «end» := block.«end» + (b.text.length : Int) })))))))
        ((b.blocks.filter (fun e =>
            ((blockTypes e.1).map (fun t => t.set)) == some BKind.continuous)).foldl
          (concatContinuousStep (b.text.length : Int))
          ((a.blocks.filter (fun e =>
              ((blockTypes e.1).map (fun t => t.set)) == some BKind.continuous)).map
            (fun e => (e.1, BlockData.cont (e.2.contList.map
              (fun value => value + (b.text.length : Int))))))))
        ((b.blocks.filter (fun e =>
            ((blockTypes e.1).map (fun t => t.set)) == some BKind.singled)).foldl
          concatSingledStep
          ((a.blocks.filter (fun e =>
              ((blockTypes e.1).map (fun t => t.set)) == some BKind.singled)).map
            (fun e => (e.1, BlockData.sing (e.2.singList.map
              (fun block => block + (b.text.length : Int))))))) := by
  unfold concat concatPropertiedBlocks concatContinuousBlocks concatSingledBlocks
  rw [getBlocksOfType_eq_some a.blocks .propertied ha,
    getBlocksOfType_eq_some b.blocks .propertied hb,
    getBlocksOfType_eq_some a.blocks .continuous ha,
    getBlocksOfType_eq_some b.blocks .continuous hb,
    getBlocksOfType_eq_some a.blocks .singled ha,
    getBlocksOfType_eq_some b.blocks .singled hb]
  exact ⟨_, rfl, rfl, rfl⟩

/-! ### Error discrimination for C10 -/

theorem concatPropertiedBlocks_none_right (b a : RangeModel)
    (e0 : String × BlockData) (he0 : e0 ∈ a.blocks) (h : blockTypes e0.1 = none) :
    ∀ model, concatPropertiedBlocks b a model = none := by
  intro model
  unfold concatPropertiedBlocks
  rw [getBlocksOfType_eq_none _ _ e0 he0 h]
  rfl

theorem concatPropertiedBlocks_none_left (b a : RangeModel)
    (e0 : String × BlockData) (he0 : e0 ∈ b.blocks) (h : blockTypes e0.1 = none) :
    ∀ model, concatPropertiedBlocks b a model = none := by
  intro model
  unfold concatPropertiedBlocks
  rcases hga : getBlocksOfType a.blocks .propertied with _ | l
  · rfl
  · rw [getBlocksOfType_eq_none _ _ e0 he0 h]
    rfl

theorem concat_none_of_bad_left (b a : RangeModel)
    (e0 : String × BlockData) (he0 : e0 ∈ b.blocks) (h : blockTypes e0.1 = none) :
    concat b a = none := by
  unfold concat
  simp only [concatPropertiedBlocks_none_left b a e0 he0 h]
  rfl

theorem concat_none_of_bad_right (b a : RangeModel)
    (e0 : String × BlockData) (he0 : e0 ∈ a.blocks) (h : blockTypes e0.1 = none) :
    concat b a = none := by
  unfold concat
  simp only [concatPropertiedBlocks_none_right b a e0 he0 h]
  rfl

theorem getBlocksOfTypeE_eq_error (bs : List (String × BlockData)) (k : BKind)
    (e0 : String × BlockData) (he0 : e0 ∈ bs) (h : blockTypes e0.1 = none) :
    getBlocksOfTypeE bs k = .error .badKind := by
  unfold getBlocksOfTypeE
  rw [getBlocksOfType_eq_none _ _ e0 he0 h]

theorem getBlocksOfTypeE_eq_ok (bs : List (String × BlockData)) (k : BKind)
    (h : ∀ e ∈ bs, (blockTypes e.1).isSome) :
    getBlocksOfTypeE bs k
      = .ok (bs.filter (fun e => ((blockTypes e.1).map (fun t => t.set)) == some k)) := by
  unfold getBlocksOfTypeE
  rw [getBlocksOfType_eq_some _ _ h]

theorem toElement_badKind_of_bad (m : RangeModel)
    (e0 : String × BlockData) (he0 : e0 ∈ m.blocks) (h : blockTypes e0.1 = none) :
    toElement m = .error .badKind := by
  unfold toElement addPropertiedBlocksToElement
  rw [getBlocksOfTypeE_eq_error _ _ e0 he0 h]
  rfl

theorem targetsCollect_ne_badKind («end» : Int) (items : List TNItem) (str : List Char)
    (cur : Nat × List Char) (rest : List (Nat × List Char)) :
    targetsCollect «end» items str cur rest ≠ .error .badKind := by
  induction rest generalizing items str cur with
  | nil =>
    unfold targetsCollect
    split <;> simp
  | cons n rs ih =>
    unfold targetsCollect
    split
    · exact ih _ _ _
    · simp

theorem targetsSeek_ne_badKind (start «end» : Int) (str : List Char)
    (cur : Nat × List Char) (rest : List (Nat × List Char)) :
    targetsSeek start «end» str cur rest ≠ .error .badKind := by
  induction rest generalizing str cur with
  | nil =>
    unfold targetsSeek
    split
    · simp
    · exact targetsCollect_ne_badKind _ _ _ _ _
  | cons n rs ih =>
    unfold targetsSeek
    split
    · exact ih _ _
    · exact targetsCollect_ne_badKind _ _ _ _ _

theorem getTextNodeTargets_ne_badKind (el : DomTree) (start «end» : Int) :
    getTextNodeTargets el start «end» ≠ .error .badKind := by
  unfold getTextNodeTargets
  split
  · simp
  · exact targetsSeek_ne_badKind _ _ _ _ _

theorem foldlM_ne_badKind {α β : Type} (f : α → β → Except EErr α)
    (h : ∀ s x, f s x ≠ .error .badKind) :
    ∀ (l : List β) (s : α), l.foldlM f s ≠ .error .badKind := by
  intro l
  induction l with
  | nil =>
    intro s
    simp [List.foldlM, pure, Except.pure]
  | cons x xs ih =>
    intro s hcontra
    rw [List.foldlM_cons] at hcontra
    rcases hf : f s x with e | s2
    · rw [hf] at hcontra
      have : e = .badKind := by
        simpa [Bind.bind, Except.bind] using hcontra
      exact h s x (by rw [hf, this])
    · rw [hf] at hcontra
      simp only [Bind.bind, Except.bind] at hcontra
      exact ih s2 hcontra

theorem except_bind_ne_badKind {α β : Type} (x : Except EErr α) (f : α → Except EErr β)
    (hx : x ≠ .error .badKind) (hf : ∀ s, f s ≠ .error .badKind) :
    (x >>= f) ≠ .error .badKind := by
  intro hc
  rcases x with e | s
  · simp only [Bind.bind, Except.bind] at hc
    have he : e = EErr.badKind := by simpa using hc
    exact hx (by rw [he])
  · simp only [Bind.bind, Except.bind] at hc
    exact hf s hc

theorem targets_then_fold_ne_badKind {γ : Type} (el : DomTree) (s e2 : Int)
    (g : List TNItem → γ) :
    (do
      let list ← getTextNodeTargets el s e2
      return g list) ≠ (.error .badKind : Except EErr γ) :=
  except_bind_ne_badKind _ _ (getTextNodeTargets_ne_badKind el s e2)
    (fun l => by simp [Pure.pure, Except.pure])

theorem addPropertiedBlocksToElement_ne_badKind (st : EmitState) (m : RangeModel)
    (h : ∀ e ∈ m.blocks, (blockTypes e.1).isSome) :
    addPropertiedBlocksToElement st m ≠ .error .badKind := by
  unfold addPropertiedBlocksToElement
  rw [getBlocksOfTypeE_eq_ok _ _ h]
  intro hcontra
  simp only [Bind.bind, Except.bind] at hcontra
  refine foldlM_ne_badKind _ (fun s x => ?_) _ st hcontra
  exact foldlM_ne_badKind _ (fun s2 x2 => targets_then_fold_ne_badKind _ _ _ _) _ s

theorem addContinuousBlocksToElement_ne_badKind (st : EmitState) (m : RangeModel)
    (h : ∀ e ∈ m.blocks, (blockTypes e.1).isSome) :
    addContinuousBlocksToElement st m ≠ .error .badKind := by
  unfold addContinuousBlocksToElement
  rw [getBlocksOfTypeE_eq_ok _ _ h]
  intro hcontra
  simp only [Bind.bind, Except.bind] at hcontra
  refine foldlM_ne_badKind _ (fun s x => ?_) _ st hcontra
  exact foldlM_ne_badKind _ (fun s2 x2 => targets_then_fold_ne_badKind _ _ _ _) _ s

theorem addSingledBlocksToElement_ne_badKind (st : EmitState) (m : RangeModel)
    (h : ∀ e ∈ m.blocks, (blockTypes e.1).isSome) :
    addSingledBlocksToElement st m ≠ .error .badKind := by
  unfold addSingledBlocksToElement
  rw [getBlocksOfTypeE_eq_ok _ _ h]
  intro hcontra
  simp only [Bind.bind, Except.bind] at hcontra
  refine foldlM_ne_badKind _ (fun s x => ?_) _ st hcontra
  exact foldlM_ne_badKind _ (fun s2 x2 => targets_then_fold_ne_badKind _ _ _ _) _ s

theorem toElement_ne_badKind (m : RangeModel)
    (h : ∀ e ∈ m.blocks, (blockTypes e.1).isSome) :
    toElement m ≠ .error .badKind := by
  unfold toElement
  show (addPropertiedBlocksToElement
      { tree := normalizeElementAsDocument (.textN 0 m.text), nextId := 1 } m
      >>= fun st => addContinuousBlocksToElement st m
      >>= fun st => addSingledBlocksToElement st m
      >>= fun st => pure st.tree) ≠ .error .badKind
  refine except_bind_ne_badKind _ _
    (addPropertiedBlocksToElement_ne_badKind _ m h) (fun s1 => ?_)
  refine except_bind_ne_badKind _ _
    (addContinuousBlocksToElement_ne_badKind _ m h) (fun s2 => ?_)
  refine except_bind_ne_badKind _ _
    (addSingledBlocksToElement_ne_badKind _ m h) (fun s3 => ?_)
  simp [Pure.pure, Except.pure]

/-- Claim C10: a blocks key that is not a canonical kind name of the registry
makes split, concat and emit throw (the blockTypes dispatch inside
getBlocksOfType is partial): split and concat return none and toElement
fails with the badKind error, whichever argument carries the unknown key;
when every key of every model involved is a registry kind name, this failure
never occurs: split and concat succeed and toElement never reports badKind. -/
theorem c10_unknown_kind_dispatch (M : RangeModel) :
    ((∃ e ∈ M.blocks, blockTypes e.1 = none) →
        (∀ num, split M num = none)
        ∧ (∀ other, concat M other = none ∧ concat other M = none)
        ∧ toElement M = .error .badKind)
      ∧ ((∀ e ∈ M.blocks, (blockTypes e.1).isSome) →
        (∀ num, (split M num).isSome)
        ∧ (∀ other, (∀ e ∈ other.blocks, (blockTypes e.1).isSome) →
            (concat M other).isSome ∧ (concat other M).isSome)
        ∧ toElement M ≠ .error .badKind) := by
  constructor
  · intro hbad
    obtain ⟨e0, he0, h⟩ := hbad
    refine ⟨fun num => split_eq_none_of_bad M num e0 he0 h,
      fun other => ⟨concat_none_of_bad_left M other e0 he0 h,
        concat_none_of_bad_right other M e0 he0 h⟩,
      toElement_badKind_of_bad M e0 he0 h⟩
  · intro hknown
    refine ⟨fun num => ?_, fun other hother => ?_, toElement_ne_badKind M hknown⟩
    · rw [split_eq_folds M num hknown]
      rfl
    · obtain ⟨m1, hm1, _⟩ := concat_of_known M other hknown hother
      obtain ⟨m2, hm2, _⟩ := concat_of_known other M hother hknown
      rw [hm1, hm2]
      exact ⟨rfl, rfl⟩

/-- A model with a blocks key that is not a registry kind name. -/
def c10Bad : RangeModel := { text := "ab".toList, blocks := [("nope", .cont [0, 1])] }

/-- A model all of whose blocks keys are registry kind names. -/
def c10Good : RangeModel := { text := "ab".toList, blocks := [("bold", .cont [0, 2])] }

/-- Witness for C10 at a model with the unknown key nope and a model with the
registry key bold. -/
theorem c10_unknown_kind_dispatch_witness :
    (∃ e ∈ c10Bad.blocks, blockTypes e.1 = none)
      ∧ (∀ e ∈ c10Good.blocks, (blockTypes e.1).isSome)
      ∧ ((∀ num, split c10Bad num = none)
          ∧ (∀ other, concat c10Bad other = none ∧ concat other c10Bad = none)
          ∧ toElement c10Bad = .error .badKind)
      ∧ ((∀ num, (split c10Good num).isSome)
          ∧ (∀ other, (∀ e ∈ other.blocks, (blockTypes e.1).isSome) →
              (concat c10Good other).isSome ∧ (concat other c10Good).isSome)
          ∧ toElement c10Good ≠ .error .badKind) :=
  ⟨by decide, by decide,
    (c10_unknown_kind_dispatch c10Bad).1 (by decide),
    (c10_unknown_kind_dispatch c10Good).2 (by decide)⟩

/-! ### C6 development -/

/-- The well-formedness predicate of claim C6 on one stored value, following
the spec's words: a continuous list is nonempty, of even length and strictly
ascending when flattened; a propertied or singled list is nonempty (no kind
maps to an empty list). -/
def WFBlockData : BlockData → Prop
  | .cont L => L ≠ [] ∧ Even L.length ∧ L.Chain' (· < ·)
  | .prop P => P ≠ []
  | .sing S => S ≠ []

/-- The well-formedness predicate of claim C6 on a model: every stored blocks
entry is well-formed. -/
def WellFormed (m : RangeModel) : Prop :=
  ∀ e ∈ m.blocks, WFBlockData e.2

lemma objGet_mem (blocks : List (String × BlockData)) (name : String) (d : BlockData)
    (h : objGet blocks name = some d) : (name, d) ∈ blocks := by
  induction blocks with
  | nil => simp [objGet] at h
  | cons f rest ih =>
    by_cases hf : f.1 = name
    · rw [objGet, List.find?_cons_of_pos _ (by simp [hf])] at h
      simp only [Option.map_some', Option.some.injEq] at h
      exact List.mem_cons.mpr (Or.inl (by rw [← hf, ← h]))
    · rw [objGet, List.find?_cons_of_neg _ (by simp [hf])] at h
      exact List.mem_cons.mpr (Or.inr (ih h))

lemma mem_objSet (blocks : List (String × BlockData)) (name : String) (v : BlockData)
    (e : String × BlockData) (h : e ∈ objSet blocks name v) :
    e = (name, v) ∨ e ∈ blocks := by
  induction blocks with
  | nil =>
    rw [objSet] at h
    simp at h
    exact Or.inl h
  | cons f rest ih =>
    rw [objSet] at h
    by_cases hf : f.1 = name
    · rw [if_pos (by simp [hf])] at h
      rcases List.mem_cons.mp h with h1 | h1
      · exact Or.inl h1
      · exact Or.inr (List.mem_cons.mpr (Or.inr h1))
    · rw [if_neg (by simp [hf])] at h
      rcases List.mem_cons.mp h with h1 | h1
      · exact Or.inr (List.mem_cons.mpr (Or.inl h1))
      · rcases ih h1 with h2 | h2
        · exact Or.inl h2
        · exact Or.inr (List.mem_cons.mpr (Or.inr h2))

lemma list_set_last_eq (L : List Int) (v : Int) (h : L ≠ []) :
    L.set (L.length - 1) v = L.dropLast ++ [v] := by
  induction L with
  | nil => exact absurd rfl h
  | cons a tl ih =>
    cases tl with
    | nil => rfl
    | cons b tl2 =>
      have ih2 := ih (by simp)
      simp only [List.length_cons, Nat.add_sub_cancel] at ih2 ⊢
      rw [show List.set (a :: b :: tl2) (tl2.length + 1) v
          = a :: List.set (b :: tl2) tl2.length v from rfl]
      rw [ih2]
      simp [List.dropLast_cons₂]

lemma chain_lt_set_last (L : List Int) (v : Int) (h : L ≠ [])
    (hch : L.Chain' (· < ·)) (hv : L.getD (L.length - 1) 0 ≤ v) :
    (L.set (L.length - 1) v).Chain' (· < ·) := by
  have hlast : L.getD (L.length - 1) 0 = L.getLast h := by
    rw [List.getD_eq_getElem L 0 (by
      have := List.length_pos.mpr h
      omega), List.getLast_eq_getElem]
  have hdecomp := (List.dropLast_append_getLast h).symm
  have hch2 := hch
  rw [hdecomp, List.chain'_append] at hch2
  obtain ⟨h1, _, h3⟩ := hch2
  rw [list_set_last_eq L v h, List.chain'_append]
  refine ⟨h1, List.chain'_singleton _, ?_⟩
  intro x hx y hy
  simp only [List.head?_cons, Option.mem_def, Option.some.injEq] at hy
  subst hy
  have := h3 x hx (L.getLast h) (by simp)
  omega

lemma chain_lt_append_pair (L : List Int) (s e : Int) (hch : L.Chain' (· < ·))
    (hse : s < e) (hlt : ∀ x ∈ L.getLast?, x < s) :
    (L ++ [s, e]).Chain' (· < ·) := by
  rw [List.chain'_append]
  refine ⟨hch, List.chain'_pair.mpr hse, ?_⟩
  intro x hx y hy
  simp only [List.head?_cons, Option.mem_def, Option.some.injEq] at hy
  subst hy
  exact hlt x hx

lemma continuous_wf (m : RangeModel) (node : DomTree) (h : WellFormed m) :
    WellFormed (continuous m node) := by
  unfold continuous
  dsimp only
  split
  · split
    · exact h
    · next hne _ tt _ =>
      intro e he
      rcases mem_objSet _ _ _ e he with he1 | he1
      · rw [he1]
        rcases hog : objGet m.blocks tt.name with _ | d
        ·
          simp only [Option.map_none', Option.getD_none, List.length_nil]
          rw [if_neg (by simp)]
          refine ⟨by simp, by simp, ?_⟩
          simp only [List.nil_append]
          exact List.chain'_pair.mpr (by omega)
        · have hd := h (tt.name, d) (objGet_mem _ _ _ hog)
          cases d with
          | cont L =>
            simp only [Option.map_some', Option.getD_some, BlockData.contList]
            obtain ⟨hL, heven, hch⟩ := hd
            have hlen0 : L.length ≠ 0 := fun hc => hL (List.length_eq_zero.mp hc)
            by_cases hg : L.length ≥ 2 ∧ L.getD (L.length - 1) 0 ≥ (m.text.length : Int)
            · rw [if_pos hg]
              refine ⟨?_, ?_, ?_⟩
              · rw [← List.length_pos, List.length_set]
                omega
              · rw [List.length_set]
                exact heven
              · exact chain_lt_set_last L _ hL hch (le_max_left _ _)
            · rw [if_neg hg]
              push_neg at hg
              have hlen2 : 2 ≤ L.length := by
                rcases heven with ⟨k, hk⟩
                omega
              have hlt := hg hlen2
              refine ⟨by simp, ?_, ?_⟩
              · rw [List.length_append]
                rcases heven with ⟨k, hk⟩
                exact ⟨k + 1, by simp [hk]; omega⟩
              · refine chain_lt_append_pair L _ _ hch (by omega) ?_
                intro x hx
                rw [List.getLast?_eq_getLast _ hL] at hx
                simp only [Option.mem_def, Option.some.injEq] at hx
                subst hx
                rw [List.getD_eq_getElem L 0 (by omega)] at hlt
                rw [List.getLast_eq_getElem]
                omega
          | prop P =>
            simp only [Option.map_some', Option.getD_some, BlockData.contList,
              List.length_nil]
            rw [if_neg (by simp)]
            refine ⟨by simp, by simp, ?_⟩
            simp only [List.nil_append]
            exact List.chain'_pair.mpr (by omega)
          | sing S =>
            simp only [Option.map_some', Option.getD_some, BlockData.contList,
              List.length_nil]
            rw [if_neg (by simp)]
            refine ⟨by simp, by simp, ?_⟩
            simp only [List.nil_append]
            exact List.chain'_pair.mpr (by omega)
      · exact h e he1
  · exact h

lemma propertied_wf (m : RangeModel) (node : DomTree) (h : WellFormed m) :
    WellFormed (propertied m node) := by
  unfold propertied
  dsimp only
  split
  · split
    · exact h
    · intro e he
      rcases mem_objSet _ _ _ e he with he1 | he1
      · rw [he1]
        simp [WFBlockData]
      · exact h e he1
  · exact h

lemma singled_wf (m : RangeModel) (node : DomTree) (h : WellFormed m) :
    WellFormed (singled m node) := by
  unfold singled
  dsimp only
  split
  · exact h
  · intro e he
    rcases mem_objSet _ _ _ e he with he1 | he1
    · rw [he1]
      simp [WFBlockData]
    · exact h e he1

lemma runSet_wf (m : RangeModel) (node : DomTree) (h : WellFormed m) :
    WellFormed (runSet m node) := by
  unfold runSet
  split
  · exact h
  · split
    · exact continuous_wf _ _ h
    · exact propertied_wf _ _ h
    · exact singled_wf _ _ h

mutual
theorem walkTree_wf (p : String) (m : RangeModel) (t : DomTree) (h : WellFormed m) :
    WellFormed (walkTree p m t) := by
  cases t with
  | textN id v =>
    rw [walkTree]
    split
    · exact h
    · exact h
  | elem tag attrs cs =>
    rw [walkTree]
    refine walkForest_wf tag _ cs ?_
    split
    · exact runSet_wf _ _ h
    · exact h
  | frag cs =>
    rw [walkTree]
    exact walkForest_wf _ _ cs h
theorem walkForest_wf (p : String) (m : RangeModel) (f : DomForest) (h : WellFormed m) :
    WellFormed (walkForest p m f) := by
  cases f with
  | nil =>
    rw [walkForest]
    exact h
  | cons t ts =>
    rw [walkForest]
    exact walkForest_wf p _ ts (walkTree_wf p m t h)
end

theorem fromElement_wf (el : DomTree) : WellFormed (fromElement el) := by
  have hempty : WellFormed { text := [], blocks := [] } := by
    intro e he
    simp at he
  unfold fromElement normalizeElementAsDocument
  cases el with
  | textN id v => exact walkForest_wf _ _ _ hempty
  | elem tag attrs cs => exact walkForest_wf _ _ _ hempty
  | frag cs => exact walkForest_wf _ _ _ hempty

/-- Claim C3: for a model holding a continuous span from s to e (a start-end
pair of the kind's flattened list) that strictly contains the offset k,
splitting at k and concatenating the halves restores the kind's list exactly:
the span is cut into s-k and 0-(e-k), and the merge-on-concat rule drops the
duplicate boundary at the seam, giving back the single span s-e. -/
theorem c3_continuous_split_concat_roundtrip
    (M : RangeModel) (k : Int) (name : String) (L : List Int) (i : Nat) (s e : Int)
    (b a : RangeModel)
    (hnd : (M.blocks.map Prod.fst).Nodup)
    (hkind : (blockTypes name).map (fun t => t.set) = some BKind.continuous)
    (hget : objGet M.blocks name = some (.cont L))
    (hp : List.Pairwise (· < ·) L)
    (hlen : 2 * i + 1 < L.length)
    (hs : L.getD (2 * i) 0 = s) (he : L.getD (2 * i + 1) 0 = e)
    (hsk : s < k) (hke : k < e) (hk0 : 0 ≤ k) (hklen : k ≤ (M.text.length : Int))
    (hsplit : split M k = some (b, a)) :
    ∃ m, concat b a = some m ∧ objGet m.blocks name = some (.cont L) := by
  have hsplit0 := hsplit
  have hknown : ∀ f ∈ M.blocks, (blockTypes f.1).isSome := by
    intro f hf
    rcases hbt : blockTypes f.1 with _ | tt
    · rw [split_eq_none_of_bad M k f hf hbt] at hsplit
      exact absurd hsplit (by simp)
    · simp
  have hcount : L.countP (fun x => decide (x < k)) = 2 * i + 1 := by
    refine countP_lt_of_bound L k (2 * i + 1) (by omega) ?_ ?_
    · intro j hj
      by_cases hj2 : j = 2 * i
      · rw [hj2, hs]
        exact hsk
      · calc L.getD j 0 < L.getD (2 * i) 0 :=
              pairwise_getD L hp j (2 * i) (by omega) (by omega)
          _ = s := hs
          _ < k := hsk
    · intro j hj1 hj2
      by_cases hj3 : j = 2 * i + 1
      · rw [hj3, he]
        omega
      · have := pairwise_getD L hp (2 * i + 1) j (by omega) hj2
        rw [he] at this
        omega
  have hidx : getBinarySortedInsertPosition L k = ((2 * i + 1 : Nat) : Int) := by
    rw [getBinarySortedInsertPosition_eq_countP L k hp, hcount]
  have hcond : ((((2 * i + 1 : Nat) : Int)) % 2 == 1) = true := beq_iff_eq.mpr (by omega)
  obtain ⟨bs1, bs2, heq, hleft⟩ := objGet_eq_some_split M.blocks name (.cont L) hget
  have hright := keys_nodup_right bs1 bs2 name _ (heq ▸ hnd)
  have hpd : (fun f => ((blockTypes f.1).map (fun t => t.set)) == some BKind.continuous)
      ((name, BlockData.cont L)) = true := by
    simp only [hkind]
    rfl
  have hfilter : M.blocks.filter (fun f =>
        ((blockTypes f.1).map (fun t => t.set)) == some BKind.continuous)
      = bs1.filter (fun f => ((blockTypes f.1).map (fun t => t.set)) == some BKind.continuous)
        ++ (name, BlockData.cont L)
          :: bs2.filter (fun f =>
              ((blockTypes f.1).map (fun t => t.set)) == some BKind.continuous) := by
    rw [heq, List.filter_append, List.filter_cons, if_pos hpd]
  have hotherkind : ∀ (kk : BKind), kk ≠ BKind.continuous →
      ∀ f ∈ M.blocks.filter (fun f => ((blockTypes f.1).map (fun t => t.set)) == some kk),
        f.1 ≠ name := by
    intro kk hkk f hf hcontra
    have hpf := List.of_mem_filter hf
    rw [hcontra, hkind] at hpf
    simp only [beq_iff_eq, Option.some.injEq] at hpf
    exact hkk hpf.symm
  have hhit := foldl_splitContinuousStep_get_mem k
    (bs1.filter (fun f => ((blockTypes f.1).map (fun t => t.set)) == some BKind.continuous))
    (bs2.filter (fun f => ((blockTypes f.1).map (fun t => t.set)) == some BKind.continuous))
    (BlockData.cont L)
    ((M.blocks.filter (fun f =>
        ((blockTypes f.1).map (fun t => t.set)) == some BKind.propertied)).foldl
      (splitPropertiedStep k)
      ({ text := jsSubstrLen M.text 0 k, blocks := [] },
       { text := jsSubstrFrom M.text k, blocks := [] })) name
    (fun f hf => hleft f (List.mem_of_mem_filter hf))
    (fun f hf => hright f (List.mem_of_mem_filter hf))
  rw [← hfilter] at hhit
  have hmissS := foldl_splitSingledStep_get_of_notmem k
    (M.blocks.filter (fun f => ((blockTypes f.1).map (fun t => t.set)) == some BKind.singled))
    ((M.blocks.filter (fun f =>
        ((blockTypes f.1).map (fun t => t.set)) == some BKind.continuous)).foldl
      (splitContinuousStep k)
      ((M.blocks.filter (fun f =>
          ((blockTypes f.1).map (fun t => t.set)) == some BKind.propertied)).foldl
        (splitPropertiedStep k)
        ({ text := jsSubstrLen M.text 0 k, blocks := [] },
         { text := jsSubstrFrom M.text k, blocks := [] }))) name
    (hotherkind BKind.singled (by simp))
  rw [split_eq_folds M k hknown] at hsplit
  have hba := Option.some.inj hsplit
  rw [hba] at hmissS
  have hbget : objGet b.blocks name = some (.cont (L.take (2 * i) ++ [s, k])) := by
    rw [hmissS.1, hhit.1]
    simp only [BlockData.contList]
    rw [hidx, if_pos hcond, Int.toNat_natCast, Nat.add_sub_cancel, hs]
  have haget : objGet a.blocks name
      = some (.cont ([0, e - k] ++ (L.drop (2 * i + 2)).map (fun value => value - k))) := by
    rw [hmissS.2, hhit.2]
    simp only [BlockData.contList]
    rw [hidx, if_pos hcond, Int.toNat_natCast, he]
  obtain ⟨hbk, hak⟩ := split_known M k b a hsplit0
  obtain ⟨hbnd, hand⟩ := split_nodup M k b a hsplit0
  obtain ⟨m, hm, hmtext, hmblocks⟩ := concat_eq_folds b a hbk hak
  obtain ⟨hbt, hat⟩ := split_texts M k b a hsplit0
  have hnum : ((b.text.length : Nat) : Int) = k := by
    rw [hbt, jsSubstrLen_zero, List.length_take]
    omega
  rw [hnum] at hmblocks
  refine ⟨m, hm, ?_⟩
  rw [hmblocks]
  have hSingNone : ∀ f ∈ (b.blocks.filter (fun f =>
        ((blockTypes f.1).map (fun t => t.set)) == some BKind.singled)).foldl
      concatSingledStep
      ((a.blocks.filter (fun f =>
          ((blockTypes f.1).map (fun t => t.set)) == some BKind.singled)).map
        (fun f => (f.1, BlockData.sing (f.2.singList.map (fun block => block + k))))),
      f.1 ≠ name := by
    intro f hf hcontra
    rcases foldl_concatSingledStep_keys _ _ f hf with ⟨g, hg, hgf⟩ | ⟨g, hg, hgf⟩
    · have hpf := List.of_mem_filter hg
      rw [hgf, hcontra, hkind] at hpf
      simp at hpf
    · obtain ⟨g0, hg0, hg0g⟩ := List.mem_map.mp hg
      have hpf := List.of_mem_filter hg0
      have hg0name : g0.1 = name := by
        have : g.1 = g0.1 := by rw [← hg0g]
        rw [← this, hgf, hcontra]
      rw [hg0name, hkind] at hpf
      simp at hpf
  rw [objGet_objAssign_none _ _ name hSingNone]
  obtain ⟨xb1, xb2, hxbeq, hxbleft⟩ :=
    objGet_eq_some_split b.blocks name (.cont (L.take (2 * i) ++ [s, k])) hbget
  have hxbright := keys_nodup_right xb1 xb2 name _ (hxbeq ▸ hbnd)
  have hpdb : (fun f => ((blockTypes f.1).map (fun t => t.set)) == some BKind.continuous)
      ((name, BlockData.cont (L.take (2 * i) ++ [s, k]))) = true := by
    simp only [hkind]
    rfl
  have hbfilter : b.blocks.filter (fun f =>
        ((blockTypes f.1).map (fun t => t.set)) == some BKind.continuous)
      = xb1.filter (fun f => ((blockTypes f.1).map (fun t => t.set)) == some BKind.continuous)
        ++ (name, BlockData.cont (L.take (2 * i) ++ [s, k]))
          :: xb2.filter (fun f =>
              ((blockTypes f.1).map (fun t => t.set)) == some BKind.continuous) := by
    rw [hxbeq, List.filter_append, List.filter_cons, if_pos hpdb]
  obtain ⟨ya1, ya2, hyaeq, hyaleft⟩ := objGet_eq_some_split a.blocks name
    (.cont ([0, e - k] ++ (L.drop (2 * i + 2)).map (fun value => value - k))) haget
  have hyaright := keys_nodup_right ya1 ya2 name _ (hyaeq ▸ hand)
  have hpda : (fun f => ((blockTypes f.1).map (fun t => t.set)) == some BKind.continuous)
      ((name, BlockData.cont
        ([0, e - k] ++ (L.drop (2 * i + 2)).map (fun value => value - k)))) = true := by
    simp only [hkind]
    rfl
  have hafilter : a.blocks.filter (fun f =>
        ((blockTypes f.1).map (fun t => t.set)) == some BKind.continuous)
      = ya1.filter (fun f => ((blockTypes f.1).map (fun t => t.set)) == some BKind.continuous)
        ++ (name, BlockData.cont
            ([0, e - k] ++ (L.drop (2 * i + 2)).map (fun value => value - k)))
          :: ya2.filter (fun f =>
              ((blockTypes f.1).map (fun t => t.set)) == some BKind.continuous) := by
    rw [hyaeq, List.filter_append, List.filter_cons, if_pos hpda]
  have hacc0 : objGet ((a.blocks.filter (fun f =>
        ((blockTypes f.1).map (fun t => t.set)) == some BKind.continuous)).map
      (fun f => (f.1, BlockData.cont (f.2.contList.map (fun value => value + k))))) name
      = some (.cont ((([0, e - k]
          ++ (L.drop (2 * i + 2)).map (fun value => value - k)).map
            (fun value => value + k)))) := by
    rw [hafilter, List.map_append, List.map_cons]
    exact objGet_append_mid _ _ name _ (by
      intro f hf
      obtain ⟨g0, hg0, hg0g⟩ := List.mem_map.mp hf
      have : f.1 = g0.1 := by rw [← hg0g]
      rw [this]
      exact hyaleft g0 (List.mem_of_mem_filter hg0))
  have hAL : (([0, e - k] ++ (L.drop (2 * i + 2)).map (fun value => value - k)).map
      (fun value => value + k)) = k :: e :: L.drop (2 * i + 2) := by
    simp only [List.map_append, List.map_cons, List.map_nil, List.map_map]
    rw [List.map_congr_left (g := id) (fun x _ => by simp [Function.comp]),
      List.map_id]
    simp only [List.cons_append, List.nil_append]
    congr 1
    · omega
    · congr 1
      omega
  have h2get : objGet ((b.blocks.filter (fun f =>
        ((blockTypes f.1).map (fun t => t.set)) == some BKind.continuous)).foldl
      (concatContinuousStep k)
      ((a.blocks.filter (fun f =>
          ((blockTypes f.1).map (fun t => t.set)) == some BKind.continuous)).map
        (fun f => (f.1, BlockData.cont (f.2.contList.map (fun value => value + k)))))) name
      = some (.cont L) := by
    rw [hbfilter]
    rw [foldl_concatContinuousStep_get_mem k _ _ _ _ name
      (fun f hf => hxbleft f (List.mem_of_mem_filter hf))
      (fun f hf => hxbright f (List.mem_of_mem_filter hf))]
    rw [hacc0, hAL]
    simp only [BlockData.contList]
    have hsplitlast : L.take (2 * i) ++ [s, k] = (L.take (2 * i) ++ [s]) ++ [k] := by simp
    rw [if_pos ?_]
    · rw [hsplitlast, List.dropLast_concat]
      have hL : L = L.take (2 * i) ++ s :: e :: L.drop (2 * i + 2) := by
        have := list_take_two_drop L i hlen
        rw [hs, he] at this
        exact this
      rw [List.drop_one, List.tail_cons]
      conv_rhs => rw [hL]
      simp
    · constructor
      · rw [hsplitlast, List.getLast?_concat]
        exact beq_self_eq_true _
      · rw [List.head?_cons]
        exact beq_self_eq_true _
  have h2nodup : ((((b.blocks.filter (fun f =>
        ((blockTypes f.1).map (fun t => t.set)) == some BKind.continuous)).foldl
      (concatContinuousStep k)
      ((a.blocks.filter (fun f =>
          ((blockTypes f.1).map (fun t => t.set)) == some BKind.continuous)).map
        (fun f => (f.1, BlockData.cont (f.2.contList.map
          (fun value => value + k))))))).map Prod.fst).Nodup := by
    refine foldl_concatContinuousStep_nodup k _ _ ?_
    have hkeys : (((a.blocks.filter (fun f =>
          ((blockTypes f.1).map (fun t => t.set)) == some BKind.continuous)).map
        (fun f => (f.1, BlockData.cont (f.2.contList.map
          (fun value => value + k))))).map Prod.fst)
        = ((a.blocks.filter (fun f =>
            ((blockTypes f.1).map (fun t => t.set)) == some BKind.continuous)).map
          Prod.fst) := by
      rw [List.map_map]
      rfl
    rw [hkeys]
    exact List.Nodup.sublist ((List.filter_sublist a.blocks).map Prod.fst) hand
  exact objGet_objAssign_hit _ _ name _ h2get h2nodup

/-- The model of the C3 witness. -/
def c3wM : RangeModel :=
  { text := "abcdef".toList, blocks := [("bold", .cont [0, 6])] }

/-- The before half of splitting c3wM at 3. -/
def c3wB : RangeModel :=
  { text := "abc".toList, blocks := [("bold", .cont [0, 3])] }

/-- The after half of splitting c3wM at 3. -/
def c3wA : RangeModel :=
  { text := "def".toList, blocks := [("bold", .cont [0, 3])] }

/-- Witness for C3 at a bold span 0-6 split at 3: concat restores bold 0-6. -/
theorem c3_continuous_split_concat_roundtrip_witness :
    ((c3wM.blocks.map Prod.fst).Nodup
      ∧ (blockTypes "bold").map (fun t => t.set) = some BKind.continuous
      ∧ objGet c3wM.blocks "bold" = some (.cont [0, 6])
      ∧ List.Pairwise (fun x1 x2 => x1 < x2) ([0, 6] : List Int)
      ∧ 2 * 0 + 1 < ([0, 6] : List Int).length
      ∧ ([0, 6] : List Int).getD (2 * 0) 0 = 0 ∧ ([0, 6] : List Int).getD (2 * 0 + 1) 0 = 6
      ∧ (0 : Int) < 3 ∧ (3 : Int) < 6 ∧ (0 : Int) ≤ 3 ∧ (3 : Int) ≤ (c3wM.text.length : Int)
      ∧ split c3wM 3 = some (c3wB, c3wA))
      ∧ ∃ m, concat c3wB c3wA = some m ∧ objGet m.blocks "bold" = some (.cont [0, 6]) :=
  ⟨⟨by decide, by decide, by decide, by decide, by decide, by decide, by decide,
    by decide, by decide, by decide, by decide, by decide⟩,
   c3_continuous_split_concat_roundtrip c3wM 3 "bold" [0, 6] 0 0 6 c3wB c3wA
     (by decide) (by decide) (by decide) (by decide) (by decide) (by decide) (by decide)
     (by decide) (by decide) (by decide) (by decide) (by decide)⟩

/-! ### Concrete inputs used by the claim theorems -/

/-- The tree of claim C4: p holding b holding ab, i holding cd, then ef.  The
p element is not in tagTypes, so the walker skips it but still visits its
children. -/
def c4Tree : DomTree :=
  .elem "P" [] (DomForest.ofList
    [.elem "B" [] (DomForest.ofList
      [.textN 0 "ab".toList,
       .elem "I" [] (DomForest.ofList [.textN 1 "cd".toList]),
       .textN 2 "ef".toList])])

/-- A tree whose ingest-emit-ingest round trip changes the model: an anchor
over 01, then a cite over 2345 with a nested anchor over 45.  Its model has
link entries at 0-2 and 4-6 and one cite entry at 2-6; during emit the link
entries are rendered first, so the cite span 2-6 covers two text nodes and is
wrapped as two separate cite elements, which re-ingest as two entries. -/
def c1Tree : DomTree :=
  .frag (DomForest.ofList
    [.elem "A" [] (DomForest.ofList [.textN 0 "01".toList]),
     .elem "CITE" [] (DomForest.ofList
       [.textN 1 "23".toList,
        .elem "A" [] (DomForest.ofList [.textN 2 "45".toList])])])

/-- The model ingested from c1Tree (checked by rfl in the C1 theorem). -/
def c1Model : RangeModel :=
  { text := "012345".toList,
    blocks := [("link", .prop [⟨0, 2, []⟩, ⟨4, 6, []⟩]), ("cite", .prop [⟨2, 6, []⟩])] }

/-- The tree emitted from c1Model (checked by rfl in the C1 theorem): the
cite span 2-6 has been wrapped as two separate cite elements because it
covered two text nodes after the link wraps. -/
def c1Emitted : DomTree :=
  .frag (DomForest.ofList
    [.elem "A" [] (DomForest.ofList [.textN 1 "01".toList]),
     .elem "CITE" [] (DomForest.ofList [.textN 5 "23".toList]),
     .elem "A" [] (DomForest.ofList
       [.elem "CITE" [] (DomForest.ofList [.textN 7 "45".toList])])])

/-- The model of claim C5's counterexample: one propertied link range whose
end falls exactly on the split offset. -/
def c5Model : RangeModel :=
  { text := "abcde".toList, blocks := [("link", .prop [⟨2, 5, [("href", "x")]⟩])] }

/-- The model of claim C6's counterexample: one continuous bold span covering
the whole text. -/
def c6Model : RangeModel :=
  { text := "ab".toList, blocks := [("bold", .cont [0, 2])] }

/-! ### Claim theorems -/

/-- Claim C1 (code bug): the claim states that ingest, then emit, then ingest
again yields a model structurally equal to the first for every tree.  The
code violates this on c1Tree: the first ingest records one cite entry
spanning 2-6, but emitting and re-ingesting records two cite entries 2-4 and
4-6, because emit wraps each text node under a multi-node propertied range
separately and propertied entries are never merged on ingest.  This theorem
evaluates the code at the failing input. -/
theorem c1_roundtrip_code_bug :
    (toElement (fromElement c1Tree)).map (fun t => objGet (fromElement t).blocks "cite")
      = .ok (some (.prop [⟨2, 4, []⟩, ⟨4, 6, []⟩]))
      ∧ objGet (fromElement c1Tree).blocks "cite" = some (.prop [⟨2, 6, []⟩]) := by
  have h1 : fromElement c1Tree = c1Model := rfl
  have h2 : toElement c1Model = .ok c1Emitted := rfl
  refine ⟨?_, ?_⟩
  · rw [h1, h2]
    show Except.ok (objGet (fromElement c1Emitted).blocks "cite") = _
    rfl
  · rw [h1]
    rfl

/-- Claim C4 (counterexample): the claim states the tree ingests with
blocks.bold = [0, 6], but the sameAs alias table maps B to STRONG before the
kind name is resolved, so no bold key is produced at all. -/
theorem c4_counterexample :
    objGet (fromElement c4Tree).blocks "bold" = none :=
  rfl

/-- Claim C4 (amended): ingesting the tree p(b(ab, i(cd), ef)) produces text
abcdef with blocks.strong = [0, 6] (b aliased to strong) and
blocks.emphasis = [2, 4] (i aliased to emphasis). -/
theorem c4_amended :
    (fromElement c4Tree).text = "abcdef".toList
      ∧ objGet (fromElement c4Tree).blocks "strong" = some (.cont [0, 6])
      ∧ objGet (fromElement c4Tree).blocks "emphasis" = some (.cont [2, 4]) :=
  ⟨rfl, rfl, rfl⟩

/-- Claim C5 (counterexample): the claim states that a propertied range
entirely left of the offset goes to before unchanged and that no other
entries appear in either result.  The link range 2-5 is entirely left of
offset 5, yet the code also emits a zero-length clone 0-0 into after, because
its partition tests both endpoints with strict inequalities and treats a
range touching the offset as straddling. -/
theorem c5_counterexample :
    (split c5Model 5).map (fun p => objGet p.2.blocks "link")
      = some (some (.prop [⟨0, 0, [("href", "x")]⟩])) :=
  rfl

/-- Claim C6 (counterexample): the claim states that no model returned by
split maps a kind to an empty list and that flattened continuous lists are
strictly ascending.  splitContinuousBlocks writes both sides unconditionally:
splitting c6Model at offset 0 stores bold as the empty list in before, and
splitting at offset 2 (the span's end boundary) stores the zero-length pair
0,0 in after. -/
theorem c6_counterexample :
    (split c6Model 0).map (fun p => objGet p.1.blocks "bold") = some (some (.cont []))
      ∧ (split c6Model 2).map (fun p => objGet p.2.blocks "bold") = some (some (.cont [0, 0])) :=
  ⟨rfl, rfl⟩

/-- Claim C6 (amended): every Range Model returned by ingest (fromElement) is
well-formed — each stored continuous list is nonempty, of even length and
strictly ascending when flattened, and no kind maps to an empty list
(propertied and singled lists are nonempty as well).  Split and concat do not
maintain this invariant, as the counterexample shows: splitContinuousBlocks
stores both sides unconditionally, including empty lists and zero-length
boundary pairs. -/
theorem c6_amended_ingest_well_formed (el : DomTree) :
    ∀ e ∈ (fromElement el).blocks, WFBlockData e.2 :=
  fromElement_wf el

/-- Witness for C6 on the tree <p><b>ab<i>cd</i>ef</b></p>: its ingested
strong entry is the well-formed continuous list 0,6. -/
theorem c6_amended_ingest_well_formed_witness :
    ("strong", BlockData.cont [0, 6]) ∈ (fromElement c4Tree).blocks
      ∧ WFBlockData (("strong", BlockData.cont [0, 6]).2) :=
  ⟨by decide,
   c6_amended_ingest_well_formed c4Tree ("strong", BlockData.cont [0, 6]) (by decide)⟩

/-- Claim C9 (code bug): the claim (with the spec's error-handling design)
states that split called with an offset outside 0..text.length fails with an
invalid-argument error.  The code performs no validation at all: at offset 5
on a three-character model it silently returns a before model holding the
whole text and an empty after model. -/
theorem c9_split_no_validation :
    split { text := "abc".toList, blocks := [] } 5
      = some ({ text := "abc".toList, blocks := [] }, { text := [], blocks := [] }) :=
  rfl

/-- Claim C7: when emit renders a model with exactly two continuous kinds
(the association list getBlocksOfType hands to sortContinuousBlocks inside
addContinuousBlocksToElement), the first kind is rendered before the second
exactly when applying the second over the first crosses no more often than
the converse, where getOverlapCount counts the pairs of the other list whose
two endpoints receive different binary-search insertion positions in the
first list's flattened boundaries; with any other number of continuous kinds
no reordering is performed; and the crossing counts on the spec's examples
are 1, 1 and 0. -/
theorem c7_sort_continuous (n1 n2 : String) (d1 d2 : BlockData) (h : n1 ≠ n2) :
    ((sortContinuousBlocks [(n1, d1), (n2, d2)]).map Prod.fst = [n1, n2]
        ↔ getOverlapCount d1.contList [d2.contList]
            ≤ getOverlapCount d2.contList [d1.contList])
      ∧ (∀ bs : List (String × BlockData), bs.length ≠ 2 → sortContinuousBlocks bs = bs)
      ∧ getOverlapCount [0, 10] [[5, 15]] = 1
      ∧ getOverlapCount [5, 15] [[0, 10]] = 1
      ∧ getOverlapCount [0, 20] [[5, 10]] = 0 := by
  refine ⟨?_, ?_, by decide, by decide, by decide⟩
  · simp only [sortContinuousBlocks]
    by_cases hgt : getOverlapCount d1.contList [d2.contList]
        > getOverlapCount d2.contList [d1.contList]
    · rw [if_pos hgt]
      constructor
      · intro he
        simp only [List.map_cons, List.map_nil, List.cons.injEq, and_true] at he
        exact absurd he.1 (Ne.symm h)
      · intro hle
        exact absurd hle (by omega)
    · rw [if_neg hgt]
      constructor
      · intro _
        omega
      · intro _
        rfl
  · intro bs hbs
    match bs with
    | [] => rfl
    | [a] => rfl
    | [(k0, d0), (k1, d1)] => exact absurd rfl hbs
    | a :: b :: c :: rest => rfl

/-- Witness for C7 at concrete kinds strong and emphasis with the spec's
overlapping ranges. -/
theorem c7_sort_continuous_witness :
    ("strong" ≠ "emphasis")
      ∧ (((sortContinuousBlocks [("strong", .cont [0, 10]), ("emphasis", .cont [5, 15])]).map
            Prod.fst = ["strong", "emphasis"]
          ↔ getOverlapCount (BlockData.cont [0, 10]).contList [(BlockData.cont [5, 15]).contList]
              ≤ getOverlapCount (BlockData.cont [5, 15]).contList
                  [(BlockData.cont [0, 10]).contList])
        ∧ (∀ bs : List (String × BlockData), bs.length ≠ 2 → sortContinuousBlocks bs = bs)
        ∧ getOverlapCount [0, 10] [[5, 15]] = 1
        ∧ getOverlapCount [5, 15] [[0, 10]] = 1
        ∧ getOverlapCount [0, 20] [[5, 10]] = 0) :=
  ⟨by decide, c7_sort_continuous "strong" "emphasis" (.cont [0, 10]) (.cont [5, 15]) (by decide)⟩

end TextModel
